import Mathlib

/-!
Verification development for the ToolMint SQL-tool generator.

This file contains a shallow embedding, in Lean 4, of the core components of
the repository:

  * src/parameterizer.py : class SQLParameterizer — the ordered regex-rewrite
    pipeline that replaces SQL literals/identifiers with `{{.name}}`
    placeholders while accumulating a parameter list;
  * src/quality.py      : the quality scoring functions;
  * src/validation.py   : validate_tool_advanced;
  * src/utils.py        : generate_smart_tool_name.

Python regular-expression passes are embedded as explicit character-list
scanners.  Each scanner reproduces the behaviour of the corresponding
`re.sub` / `re.search` / `re.match` call, including the relevant
backtracking behaviour of the Python engine (greedy/lazy quantifier
preferences, alternation order, word boundaries `\b`).  Modelling notes:

  * characters are Lean `Char`; the Python character classes `\w`, `\s`,
    `str.upper`/`str.lower` are modelled at the ASCII level (the repository
    processes SQL text, which is ASCII);
  * Python floats in the scoring code only ever hold small integers
    (every increment/decrement is an integer), so scores are modelled as
    `Int`, exactly;
  * Python's `$` can also match just before a trailing final newline; for
    every anchor appearing in this code the anchor is preceded by `\s*`/`\s+`
    which absorbs such a newline, so `$` is modelled as end-of-string
    (observationally equivalent here).
-/

namespace ToolMint

/-! ### Character class helpers (Python `\w`, `\s`, case folding) -/

/-- Python regex word character `\w` (ASCII): letter, digit or underscore. -/
def isWordChar (c : Char) : Bool := c.isAlpha || c.isDigit || c == '_'

/-- Python regex whitespace `\s` (ASCII): space, tab, newline, CR, VT, FF. -/
def isWS (c : Char) : Bool :=
  c == ' ' || c == '\t' || c == '\n' || c == '\r' || c == '\x0b' || c == '\x0c'

/-- Uppercase a character list (Python `str.upper` on ASCII). -/
def upperChars (s : List Char) : List Char := s.map Char.toUpper

/-- Lowercase a character list (Python `str.lower` on ASCII). -/
def lowerChars (s : List Char) : List Char := s.map Char.toLower

/-- Exact (case-sensitive) list-prefix test. -/
def hasPrefixC : List Char → List Char → Bool
  | [], _ => true
  | _ :: _, [] => false
  | a :: as, b :: bs => a == b && hasPrefixC as bs

/-- Substring test: Python `needle in hay`. -/
def containsSub (needle : List Char) : List Char → Bool
  | [] => needle.isEmpty
  | c :: t => hasPrefixC needle (c :: t) || containsSub needle t

/-- Case-insensitive keyword matcher: `kw` is given in uppercase; on success
returns the matched original characters together with the remaining input
(Python regex literal text under `re.I`). -/
def kwTryCI : List Char → List Char → Option (List Char × List Char)
  | [], s => some ([], s)
  | _ :: _, [] => none
  | k :: ks, c :: cs =>
    if k == c.toUpper then
      match kwTryCI ks cs with
      | some (m, r) => some (c :: m, r)
      | none => none
    else none

/-- Python `str.split(sep)` for a single-character separator. -/
def splitOnC (sep : Char) : List Char → List (List Char)
  | [] => [[]]
  | c :: cs =>
    if c == sep then [] :: splitOnC sep cs
    else
      match splitOnC sep cs with
      | [] => [[c]]
      | g :: gs => (c :: g) :: gs

/-- Python `str.strip()` (whitespace on both ends). -/
def stripWS (s : List Char) : List Char :=
  ((s.dropWhile isWS).reverse.dropWhile isWS).reverse

/-- Python `str.strip(ch)` for a single character. -/
def stripChar (ch : Char) (s : List Char) : List Char :=
  ((s.dropWhile (· == ch)).reverse.dropWhile (· == ch)).reverse

/-- Python `str.rstrip(ch)` for a single character. -/
def rstripChar (ch : Char) (s : List Char) : List Char :=
  (s.reverse.dropWhile (· == ch)).reverse

/-- Replace every maximal run of characters rejected by `keep` with a single
underscore; the boolean flag records whether we are inside such a run.
This is Python `re.sub(r'[^X]+', '_', s)` for the class `X` decided by
`keep` (also used with `keep c = (c != '_')` for `re.sub(r'_+', '_', s)`). -/
def squashRunsAux (keep : Char → Bool) : Bool → List Char → List Char
  | _, [] => []
  | inRun, c :: cs =>
    if keep c then c :: squashRunsAux keep false cs
    else if inRun then squashRunsAux keep true cs
    else '_' :: squashRunsAux keep true cs

/-- Lowercase ASCII letter or digit (the class `[a-z0-9]`). -/
def isLowerAlnum (c : Char) : Bool := ('a' ≤ c && c ≤ 'z') || c.isDigit

/-- Python `re.sub(r'[^a-z0-9]+', '_', s)` (parameter-name derivation in
SQLParameterizer._parameterize_strings). -/
def squashNonAlnum (s : List Char) : List Char := squashRunsAux isLowerAlnum false s

/-- Python `', '.join(...)`-style join over character lists. -/
def intercalateC (sep : List Char) : List (List Char) → List Char
  | [] => []
  | [p] => p
  | p :: ps => p ++ sep ++ intercalateC sep ps

/-- Count of non-overlapping occurrences, Python `str.count(needle)`
(for nonempty needles); the fuel is the length of the haystack. -/
def countSubAux (needle : List Char) : Nat → List Char → Nat
  | 0, _ => 0
  | _ + 1, [] => 0
  | fuel + 1, c :: cs =>
    if hasPrefixC needle (c :: cs) then
      1 + countSubAux needle fuel ((c :: cs).drop needle.length)
    else countSubAux needle fuel cs

/-- Python `str.count(needle)` for a nonempty needle. -/
def countSub (needle hay : List Char) : Nat := countSubAux needle hay.length hay

/-- Decimal rendering of a natural number (Python `str(i)` / f-string
interpolation of an int); structural fuel makes it kernel-reducible. -/
def natDecAux : Nat → Nat → List Char
  | 0, _ => []
  | fuel + 1, n =>
    if n = 0 then [] else natDecAux fuel (n / 10) ++ [Nat.digitChar (n % 10)]

/-- Decimal rendering of a natural number as a string. -/
def natDec (n : Nat) : String := if n = 0 then "0" else String.mk (natDecAux n n)

/-! ### Word boundaries (`\b`) -/

/-- Word boundary `\b` between the previously consumed character (head of the
reversed prefix `rev`) and the next character `c`; at the start of the string
the boundary holds iff `c` is a word character. -/
def boundaryBefore (rev : List Char) (c : Char) : Bool :=
  match rev with
  | [] => isWordChar c
  | p :: _ => isWordChar p != isWordChar c

/-- Word boundary `\b` after a word character, looking at the rest of the
input: holds at end of string or when the next character is not a word
character. -/
def boundaryAfterWord (rest : List Char) : Bool :=
  match rest with
  | [] => true
  | c :: _ => !(isWordChar c)

/-! ### Parameters and parameterizer state (SQLParameterizer) -/

/-- One parameter record `{"name": .., "type": .., "description": ..}`
produced by SQLParameterizer (src/parameterizer.py, `_add_param`). -/
structure Param where
  name : String
  type : String
  description : String
deriving Repr, DecidableEq

/-- The mutable state of a SQLParameterizer instance: `self.params` (a list)
and `self.param_names` (a set, modelled as a list used only through
membership). -/
structure PState where
  params : List Param
  paramNames : List String
deriving Repr, DecidableEq

/-- SQLParameterizer._add_param: append a parameter unless the name is
already registered; a non-None default value is appended to the
description as an example. -/
def addParam (st : PState) (name typ desc : String) (defaultValue : Option String) : PState :=
  if name ∈ st.paramNames then st
  else
    let d := match defaultValue with
      | some v => desc ++ " (e.g., " ++ v ++ ")"
      | none => desc
    ⟨st.params ++ [⟨name, typ, d⟩], name :: st.paramNames⟩

/-- The fixed renames applied by SQLParameterizer._make_param_name
(`name_map = {"limit": "limit_n", "offset": "offset_n"}`). -/
def nameMap (base : String) : String :=
  if base = "limit" then "limit_n"
  else if base = "offset" then "offset_n"
  else base

/-- Candidate collision name `f"{base}_{i}"`. -/
def mkCandidate (base : String) (i : Nat) : String := base ++ "_" ++ natDec i

/-- The `while f"{base}_{i}" in self.param_names: i += 1` loop of
_make_param_name, with structural fuel.  `findIdx names base fuel i` returns
the first `j ≥ i` with `mkCandidate base j ∉ names`, provided such a `j`
exists within `fuel` steps. -/
def findIdx (names : List String) (base : String) : Nat → Nat → Nat
  | 0, i => i
  | fuel + 1, i => if mkCandidate base i ∈ names then findIdx names base fuel (i + 1) else i

/-- SQLParameterizer._make_param_name: apply the fixed renames, return the
base if unused, else the first `base_i` (i = 1, 2, ...) not yet used.  The
fuel `names.length + 1` is sufficient: among `names.length + 1` distinct
candidates at least one is free (see `findIdx_spec` below). -/
def makeParamName (names : List String) (base0 : String) : String :=
  let base := nameMap base0
  if base ∈ names then mkCandidate base (findIdx names base (names.length + 1) 1)
  else base

/-! ### The generic left-to-right substitution engine

Python `re.sub` scans the subject left to right; at each position it tries
to match the pattern, emits the replacement and resumes after the match on
success, and advances one character on failure.  `scanSub` is that engine,
parameterised by a `step` function that decides whether a (nonempty) match
starts at the current position.  `rev` accumulates the original consumed
characters in reverse (used for `\b` look-behind and for the 40-character
context window of the numeric pass). -/

/-- Result of one match: replacement text, the exact matched original text,
and the remaining input after the match. -/
structure MatchOut where
  repl : List Char
  matched : List Char
  rest : List Char
deriving Repr, DecidableEq

/-- The `re.sub` engine (fuel-based so that it is kernel-reducible; the fuel
is the input length, sufficient because every match consumes at least one
character). -/
def scanSub (step : PState → List Char → List Char → Option (MatchOut × PState)) :
    Nat → PState → List Char → List Char → List Char × PState
  | 0, st, _, rest => (rest, st)
  | _ + 1, st, _, [] => ([], st)
  | fuel + 1, st, rev, c :: cs =>
    match step st rev (c :: cs) with
    | some (m, st') =>
      let (out, st'') := scanSub step fuel st' (m.matched.reverse ++ rev) m.rest
      (m.repl ++ out, st'')
    | none =>
      let (out, st') := scanSub step fuel st (c :: rev) cs
      (c :: out, st')

/-- Run one substitution pass over a whole string. -/
def runPass (step : PState → List Char → List Char → Option (MatchOut × PState))
    (st : PState) (s : List Char) : List Char × PState :=
  scanSub step s.length st [] s

/-- The placeholder marker `{{.` (the literal guard substring used by the
skip checks of the passes). -/
def tokenMarker : List Char := ['\x7b', '\x7b', '.']

/-- Build a placeholder token `{{.name}}`. -/
def mkToken (name : String) : List Char :=
  '\x7b' :: '\x7b' :: '.' :: (name.data ++ ['\x7d', '\x7d'])

/-- Take a nonempty run of whitespace (`\s+`). -/
def wsTake1 (s : List Char) : Option (List Char × List Char) :=
  let ws := s.takeWhile isWS
  if ws.isEmpty then none else some (ws, s.drop ws.length)

/-- Take an identifier `[a-zA-Z_][\w]*`. -/
def identTake (s : List Char) : Option (List Char × List Char) :=
  match s with
  | c :: cs =>
    if c.isAlpha || c == '_' then
      let tail := cs.takeWhile isWordChar
      some (c :: tail, cs.drop tail.length)
    else none
  | [] => none

/-- Full-string identifier test `re.match(r'^[a-zA-Z_][\w]*$', col)`. -/
def isFullIdent (col : List Char) : Bool :=
  match col with
  | c :: cs => (c.isAlpha || c == '_') && cs.all isWordChar
  | [] => false

/-! ### Pass 1: string literals (SQLParameterizer._parameterize_strings) -/

/-- The replacer closure of _parameterize_strings, for a quoted literal with
content `content` (group 1). -/
def stringReplacer (st : PState) (q : Char) (content rest' : List Char) :
    MatchOut × PState :=
  let matched := q :: (content ++ [q])
  if content.length ≤ 1
      || String.mk (upperChars content) ∈ ["ASC", "DESC", "YES", "NO", "Y", "N"] then
    (⟨matched, matched, rest'⟩, st)
  else if '%' ∈ content then
    let baseValue := stripChar '_'
      ((content.filter (fun c => !(c == '%'))).map (fun c => if c == '/' then '_' else c))
    let safeValue := (stripChar '_' (squashNonAlnum (lowerChars baseValue))).take 20
    let pname := makeParamName st.paramNames
      (if safeValue.isEmpty then "pattern" else String.mk safeValue)
    let st' := addParam st pname "string" "String pattern for LIKE" (some (String.mk content))
    (⟨mkToken pname, matched, rest'⟩, st')
  else
    let safeValue := (stripChar '_' (squashNonAlnum (lowerChars content))).take 20
    let pname := makeParamName st.paramNames
      (if safeValue.isEmpty then "str_value" else String.mk safeValue)
    let st' := addParam st pname "string" "String value" (some (String.mk content))
    (⟨mkToken pname, matched, rest'⟩, st')

/-- Step for `re.sub(r'"([^"]+)"', ...)` resp. the single-quote variant:
a quote, at least one non-quote character, a closing quote. -/
def quoteStep (q : Char) (st : PState) (_rev rest : List Char) :
    Option (MatchOut × PState) :=
  match rest with
  | c :: cs =>
    if c == q then
      let content := cs.takeWhile (fun x => !(x == q))
      if content.isEmpty then none
      else
        match cs.drop content.length with
        | _ :: rest' => some (stringReplacer st q content rest')
        | [] => none
    else none
  | [] => none

/-! ### Pass 2: numeric literals (SQLParameterizer._parameterize_numbers) -/

/-- The replacer closure of _parameterize_numbers; `rev` is the reversed
already-scanned part of the pass input, from which the 40-character
look-behind window `before` is taken. -/
def numberReplacer (st : PState) (rev value rest' : List Char) : MatchOut × PState :=
  let before := upperChars (rev.take 40).reverse
  if containsSub "LIMIT".data before || containsSub "OFFSET".data before then
    (⟨value, value, rest'⟩, st)
  else if containsSub "WHERE".data before || containsSub "HAVING".data before
      || containsSub "BETWEEN".data before || containsSub ">".data before
      || containsSub "<".data before || containsSub "=".data before
      || containsSub "!=".data before || containsSub "<>".data before
      || containsSub ">=".data before || containsSub "<=".data before then
    let pname :=
      if '.' ∈ value then makeParamName st.paramNames "threshold"
      else makeParamName st.paramNames "value"
    let st' := addParam st pname "string" "Numeric value" (some (String.mk value))
    (⟨mkToken pname, value, rest'⟩, st')
  else (⟨value, value, rest'⟩, st)

/-- Step for `re.sub(r'\b(\d+(?:\.\d+)?)\b', ...)`: leading `\b`, greedy
digits, an optional fractional part that is dropped again (backtracking)
when the trailing `\b` fails after it. -/
def numberStep (st : PState) (rev rest : List Char) : Option (MatchOut × PState) :=
  match rest with
  | c :: _ =>
    if c.isDigit && boundaryBefore rev c then
      let ds := rest.takeWhile Char.isDigit
      let r1 := rest.drop ds.length
      match r1 with
      | '.' :: r2 =>
        let ds2 := r2.takeWhile Char.isDigit
        let r3 := r2.drop ds2.length
        if !ds2.isEmpty && boundaryAfterWord r3 then
          some (numberReplacer st rev (ds ++ '.' :: ds2) r3)
        else if boundaryAfterWord r1 then some (numberReplacer st rev ds r1)
        else none
      | _ => if boundaryAfterWord r1 then some (numberReplacer st rev ds r1) else none
    else none
  | [] => none

/-! ### Pass 3: table names (SQLParameterizer._parameterize_tables_names) -/

/-- Try the alternation `FROM|JOIN|INTO|UPDATE` (source order; the keywords
have distinct first letters, so at most one alternative can match). -/
def tryKeywords : List String → List Char → Option (List Char × List Char)
  | [], _ => none
  | k :: ks, s =>
    match kwTryCI k.data s with
    | some r => some r
    | none => tryKeywords ks s

/-- The from_replacer closure of _parameterize_tables_names. -/
def tablesReplacer (st : PState) (kwText ws table rest' : List Char) :
    MatchOut × PState :=
  let matched := kwText ++ ws ++ table
  if '(' ∈ table || String.mk (upperChars table) ∈ ["SELECT", "VALUES"] then
    (⟨matched, matched, rest'⟩, st)
  else
    let pname := makeParamName st.paramNames "table"
    let st' := addParam st pname "string" "Table name" (some (String.mk table))
    (⟨kwText ++ ' ' :: mkToken pname, matched, rest'⟩, st')

/-- Step for `re.sub(r'\b(FROM|JOIN|INTO|UPDATE)\s+([a-zA-Z_][\w]*)', ..., re.I)`. -/
def tablesStep (st : PState) (rev rest : List Char) : Option (MatchOut × PState) :=
  match rest with
  | c :: _ =>
    if boundaryBefore rev c then
      match tryKeywords ["FROM", "JOIN", "INTO", "UPDATE"] rest with
      | some (kwText, r1) =>
        match wsTake1 r1 with
        | some (ws, r2) =>
          match identTake r2 with
          | some (table, r3) => some (tablesReplacer st kwText ws table r3)
          | none => none
        | none => none
      | none => none
    else none
  | [] => none

/-! ### Pass 4: SELECT column list (SQLParameterizer._parameterize_select_columns)

Pattern: `\b(SELECT)\s+(.*?)\s+(FROM)\b` with `re.I | re.DOTALL`.
Backtracking order of the Python engine: the first `\s+` is greedy (tries the
maximal whitespace run `W` first), the lazy `(.*?)` then grows from the empty
string; only if no match exists with the maximal first run does `\s+`
backtrack, which only adds the candidate where `FROM` starts immediately
after the run (the middle group empty, both `\s+` inside the run, needing a
run of length at least 2).  Hence: primary search = earliest `FROM` (with a
whitespace character just before it and `\b` after it) strictly beyond the
leading run; fallback = `FROM` directly at the end of a run of length ≥ 2.
Group boundaries inside the whitespace only differ by whitespace, which the
replacer strips from every comma-separated column anyway. -/

/-- Scan for the first position (counting from the scan start) whose previous
character is whitespace and where `FROM` matches case-insensitively with a
word boundary after it; returns (number of skipped characters, matched FROM
text, rest after FROM). -/
def findWsFrom : Char → List Char → Nat → Option (Nat × List Char × List Char)
  | _, _, 0 => none
  | _, [], _ + 1 => none
  | prev, c :: cs, fuel + 1 =>
    if isWS prev then
      match kwTryCI "FROM".data (c :: cs) with
      | some (fromText, r) =>
        if boundaryAfterWord r then some (0, fromText, r)
        else
          match findWsFrom c cs fuel with
          | some (n, ft, r') => some (n + 1, ft, r')
          | none => none
      | none =>
        match findWsFrom c cs fuel with
        | some (n, ft, r') => some (n + 1, ft, r')
        | none => none
    else
      match findWsFrom c cs fuel with
      | some (n, ft, r') => some (n + 1, ft, r')
      | none => none

/-- Locate the `\s+(.*?)\s+(FROM)\b` part after the matched `SELECT`; returns
(raw middle text, FROM text, rest after FROM).  The raw middle may carry
surrounding whitespace of the true group 2; the replacer strips it. -/
def selectFindParts (s0 : List Char) : Option (List Char × List Char × List Char) :=
  match s0 with
  | c0 :: _ =>
    if isWS c0 then
      let w := (s0.takeWhile isWS).length
      match s0.drop w with
      | cw :: rem =>
        match findWsFrom cw rem rem.length with
        | some (n, fromText, r) => some ((s0.drop w).take n, fromText, r)
        | none =>
          -- fallback: FROM immediately after a whitespace run of length ≥ 2
          if 2 ≤ w then
            match kwTryCI "FROM".data (cw :: rem) with
            | some (fromText, r) =>
              if boundaryAfterWord r then some ([], fromText, r) else none
            | none => none
          else none
      | [] => none
    else none
  | [] => none

/-- At-position test for `\b(COUNT|SUM|AVG|MAX|MIN|GROUP_CONCAT|DISTINCT)\s*\(`
(re.I), used by the aggregate guard of the SELECT pass. -/
def aggKwAt (kw : String) (rest : List Char) : Bool :=
  match kwTryCI kw.data rest with
  | some (_, r) =>
    match r.dropWhile isWS with
    | '(' :: _ => true
    | _ => false
  | none => false

/-- Generic search engine for `re.search`: try the at-position predicate at
every position, threading the reversed prefix for `\b` look-behind. -/
def existsScan (p : List Char → List Char → Bool) : List Char → List Char → Bool
  | _, [] => false
  | rev, c :: cs => p rev (c :: cs) || existsScan p (c :: rev) cs

/-- The aggregate/DISTINCT guard of the SELECT pass
(`re.search(r'\b(COUNT|SUM|AVG|MAX|MIN|GROUP_CONCAT|DISTINCT)\s*\(', columns_str, re.I)`). -/
def aggSearch (s : List Char) : Bool :=
  existsScan
    (fun rev rest =>
      match rest with
      | c :: _ =>
        boundaryBefore rev c &&
          (aggKwAt "COUNT" rest || aggKwAt "SUM" rest || aggKwAt "AVG" rest
            || aggKwAt "MAX" rest || aggKwAt "MIN" rest
            || aggKwAt "GROUP_CONCAT" rest || aggKwAt "DISTINCT" rest)
      | [] => false)
    [] s

/-- Per-column keep test of the SELECT pass: alias (` AS ` in the uppercased
column) or `table.column` form. -/
def selColKeep (col : List Char) : Bool :=
  containsSub " AS ".data (upperChars col) || '.' ∈ col

/-- Process the comma-separated SELECT columns (1-based index `i`), mirroring
the loop in select_replacer. -/
def processSelCols (st : PState) (i : Nat) : List (List Char) → List (List Char) × PState
  | [] => ([], st)
  | col :: cols =>
    let (outCol, st') :=
      if selColKeep col then (col, st)
      else if isFullIdent col then
        let base := if 1 < i then "select_col_" ++ natDec i else "select_col"
        let pname := makeParamName st.paramNames base
        (mkToken pname, addParam st pname "string" "Column to select" (some (String.mk col)))
      else (col, st)
    let (outCols, st'') := processSelCols st' (i + 1) cols
    (outCol :: outCols, st'')

/-- The select_replacer closure. -/
def selectReplacer (st : PState) (selKw midRaw fromText matched rest' : List Char) :
    MatchOut × PState :=
  if String.mk (stripWS midRaw) = "*" then (⟨matched, matched, rest'⟩, st)
  else if aggSearch midRaw then (⟨matched, matched, rest'⟩, st)
  else
    let cols := (splitOnC ',' midRaw).map stripWS
    let (outCols, st') := processSelCols st 1 cols
    (⟨selKw ++ ' ' :: (intercalateC ", ".data outCols ++ ' ' :: fromText), matched, rest'⟩, st')

/-- Step for the SELECT-columns pass. -/
def selectStep (st : PState) (rev rest : List Char) : Option (MatchOut × PState) :=
  match rest with
  | c :: _ =>
    if boundaryBefore rev c then
      match kwTryCI "SELECT".data rest with
      | some (selKw, s0) =>
        match selectFindParts s0 with
        | some (midRaw, fromText, rest') =>
          let consumed := s0.take (s0.length - rest'.length)
          some (selectReplacer st selKw midRaw fromText (selKw ++ consumed) rest')
        | none => none
      | none => none
    else none
  | [] => none

/-! ### Pass 5: WHERE columns (SQLParameterizer._parameterize_where_columns) -/

/-- Take a column reference `[a-zA-Z_][\w\.]*` (greedy). -/
def columnTake (s : List Char) : Option (List Char × List Char) :=
  match s with
  | c :: cs =>
    if c.isAlpha || c == '_' then
      let tail := cs.takeWhile (fun x => isWordChar x || x == '.')
      some (c :: tail, cs.drop tail.length)
    else none
  | [] => none

/-- Exact literal alternative (case-sensitive, for the symbolic operators). -/
def litTry (lit : String) (s : List Char) : Option (List Char × List Char) :=
  if hasPrefixC lit.data s then some (lit.data, s.drop lit.data.length) else none

/-- Two case-insensitive words separated by `\s+` (for `NOT\s+IN` etc.). -/
def ci2Try (k1 k2 : String) (s : List Char) : Option (List Char × List Char) :=
  match kwTryCI k1.data s with
  | some (m1, r1) =>
    match wsTake1 r1 with
    | some (ws, r2) =>
      match kwTryCI k2.data r2 with
      | some (m2, r3) => some (m1 ++ ws ++ m2, r3)
      | none => none
    | none => none
  | none => none

/-- Word boundary after the last character of the matched operator text. -/
def opTailBoundary (t r : List Char) : Bool :=
  match t.reverse with
  | l :: _ =>
    (match r with
      | [] => isWordChar l
      | c :: _ => isWordChar l != isWordChar c)
  | [] => false

/-- Try a list of operator alternatives in source order; an alternative whose
characters match but whose trailing `\b` fails is abandoned and the next one
is tried (Python alternation backtracking). -/
def firstOpBd : List (List Char → Option (List Char × List Char)) → List Char →
    Option (List Char × List Char)
  | [], _ => none
  | a :: as, s =>
    match a s with
    | some (t, r) => if opTailBoundary t r then some (t, r) else firstOpBd as s
    | none => firstOpBd as s

/-- The operator alternation of the WHERE pass, trailing `\b` included:
`(=|!=|<>|>=|<=|>|<|IN|NOT\s+IN|LIKE|NOT\s+LIKE|IS|IS\s+NOT)\b`. -/
def whereOpTry (s : List Char) : Option (List Char × List Char) :=
  firstOpBd
    [litTry "=", litTry "!=", litTry "<>", litTry ">=", litTry "<=",
     litTry ">", litTry "<",
     (fun r => kwTryCI "IN".data r), ci2Try "NOT" "IN",
     (fun r => kwTryCI "LIKE".data r), ci2Try "NOT" "LIKE",
     (fun r => kwTryCI "IS".data r), ci2Try "IS" "NOT"] s

/-- The where_replacer closure. -/
def whereReplacer (st : PState) (whereKw column opText matched rest' : List Char) :
    MatchOut × PState :=
  if containsSub tokenMarker column then (⟨matched, matched, rest'⟩, st)
  else if '(' ∈ column then (⟨matched, matched, rest'⟩, st)
  else if '.' ∈ column then
    match splitOnC '.' column with
    | [tableRef, colName] =>
      let pname := makeParamName st.paramNames "where_col"
      let st' := addParam st pname "string" "Column to filter on" (some (String.mk colName))
      (⟨whereKw ++ ' ' :: (tableRef ++ '.' :: (mkToken pname ++ ' ' :: opText)),
        matched, rest'⟩, st')
    | _ => (⟨matched, matched, rest'⟩, st)
  else if isFullIdent column then
    let pname := makeParamName st.paramNames "where_col"
    let st' := addParam st pname "string" "Column to filter on" (some (String.mk column))
    (⟨whereKw ++ ' ' :: (mkToken pname ++ ' ' :: opText), matched, rest'⟩, st')
  else (⟨matched, matched, rest'⟩, st)

/-- Step for
`re.sub(r'\b(WHERE)\s+([a-zA-Z_][\w\.]*)\s+(=|...|IS\s+NOT)\b', ..., re.I)`. -/
def whereStep (st : PState) (rev rest : List Char) : Option (MatchOut × PState) :=
  match rest with
  | c :: _ =>
    if boundaryBefore rev c then
      match kwTryCI "WHERE".data rest with
      | some (whereKw, r1) =>
        match wsTake1 r1 with
        | some (ws1, r2) =>
          match columnTake r2 with
          | some (column, r3) =>
            match wsTake1 r3 with
            | some (ws2, r4) =>
              match whereOpTry r4 with
              | some (opText, rest') =>
                some (whereReplacer st whereKw column opText
                  (whereKw ++ ws1 ++ column ++ ws2 ++ opText) rest')
              | none => none
            | none => none
          | none => none
        | none => none
      | none => none
    else none
  | [] => none

/-! ### Pass 6: JOIN ON columns (SQLParameterizer._parameterize_join_columns) -/

/-- Take a side of the ON comparison, `[a-zA-Z_][\w\.]+` (at least two
characters). -/
def sideTake (s : List Char) : Option (List Char × List Char) :=
  match s with
  | c :: cs =>
    if c.isAlpha || c == '_' then
      let tail := cs.takeWhile (fun x => isWordChar x || x == '.')
      if tail.isEmpty then none else some (c :: tail, cs.drop tail.length)
    else none
  | [] => none

/-- The operator alternation of the JOIN pass (no trailing `\b`):
`(=|!=|<>|>=|<=|>|<)`. -/
def joinOpTry (s : List Char) : Option (List Char × List Char) :=
  match litTry "=" s with
  | some r => some r
  | none =>
    match litTry "!=" s with
    | some r => some r
    | none =>
      match litTry "<>" s with
      | some r => some r
      | none =>
        match litTry ">=" s with
        | some r => some r
        | none =>
          match litTry "<=" s with
          | some r => some r
          | none =>
            match litTry ">" s with
            | some r => some r
            | none => litTry "<" s

/-- Process one side of the ON comparison (join_replacer body). -/
def joinSide (st : PState) (side : List Char) : List Char × PState :=
  if '.' ∈ side then
    match splitOnC '.' side with
    | [tableRef, colName] =>
      let pname := makeParamName st.paramNames "join_col"
      let st' := addParam st pname "string" "Column to join on" (some (String.mk colName))
      (tableRef ++ '.' :: mkToken pname, st')
    | _ => (side, st)
  else if isFullIdent side then
    let pname := makeParamName st.paramNames "join_col"
    let st' := addParam st pname "string" "Column to join on" (some (String.mk side))
    (mkToken pname, st')
  else (side, st)

/-- The join_replacer closure (left side processed before the right side). -/
def joinReplacer (st : PState) (onKw leftCol opText rightCol matched rest' : List Char) :
    MatchOut × PState :=
  if containsSub tokenMarker leftCol || containsSub tokenMarker rightCol then
    (⟨matched, matched, rest'⟩, st)
  else
    let (leftRes, st1) := joinSide st leftCol
    let (rightRes, st2) := joinSide st1 rightCol
    (⟨onKw ++ ' ' :: (leftRes ++ ' ' :: (opText ++ ' ' :: rightRes)), matched, rest'⟩, st2)

/-- Step for
`re.sub(r'\b(ON)\s+([a-zA-Z_][\w\.]+)\s*(=|...)\s*([a-zA-Z_][\w\.]+)', ..., re.I)`. -/
def joinStep (st : PState) (rev rest : List Char) : Option (MatchOut × PState) :=
  match rest with
  | c :: _ =>
    if boundaryBefore rev c then
      match kwTryCI "ON".data rest with
      | some (onKw, r1) =>
        match wsTake1 r1 with
        | some (ws1, r2) =>
          match sideTake r2 with
          | some (leftCol, r3) =>
            let ws2 := r3.takeWhile isWS
            let r4 := r3.drop ws2.length
            match joinOpTry r4 with
            | some (opText, r5) =>
              let ws3 := r5.takeWhile isWS
              let r6 := r5.drop ws3.length
              match sideTake r6 with
              | some (rightCol, rest') =>
                some (joinReplacer st onKw leftCol opText rightCol
                  (onKw ++ ws1 ++ leftCol ++ ws2 ++ opText ++ ws3 ++ rightCol) rest')
              | none => none
            | none => none
          | none => none
        | none => none
      | none => none
    else none
  | [] => none

/-! ### Pass 7: GROUP BY (SQLParameterizer._parameterize_group_by)

Pattern: `\b(GROUP\s+BY)\s+([^;]+?)(?=\s+(?:ORDER|HAVING|LIMIT|;|$))` (re.I).
The lookahead is not consumed.  Backtracking analysis (validated against the
Python engine): with the greedy `\s+` taking the maximal whitespace run `W`
after `GROUP BY`, the lazy `[^;]+?` finds the earliest end position at which
the lookahead holds, the content being rejected as soon as it would include
a `;`.  If that fails, backtracking `\s+` shorter only adds candidates whose
content is a single whitespace character inside the run (requiring run
length ≥ 3), accepted iff the lookahead keyword/`;`/end starts right after
the run. -/

/-- The lookahead tail `(?:ORDER|HAVING|LIMIT|;|$)` at the position after the
`\s+` of the lookahead. -/
def groupLookKw (u : List Char) : Bool :=
  (kwTryCI "ORDER".data u).isSome || (kwTryCI "HAVING".data u).isSome
    || (kwTryCI "LIMIT".data u).isSome
    || (match u with | ';' :: _ => true | _ => false)
    || u.isEmpty

/-- The full lookahead `(?=\s+(?:ORDER|HAVING|LIMIT|;|$))` at a position. -/
def groupLookahead (t : List Char) : Bool :=
  let ws := t.takeWhile isWS
  !ws.isEmpty && groupLookKw (t.drop ws.length)

/-- Lazy scan of the content `[^;]+?`: having consumed `consumed ≥ 1`
semicolon-free characters, stop at the first position where the lookahead
holds; fail on a `;` or at end of input. -/
def groupScanContent : Nat → List Char → Option (Nat × List Char)
  | _, [] => none
  | consumed, c :: cs =>
    if groupLookahead (c :: cs) then some (consumed, c :: cs)
    else if c == ';' then none
    else groupScanContent (consumed + 1) cs

/-- Process the comma-separated GROUP BY columns (1-based index `i`),
mirroring the loop in group_replacer. -/
def processGroupCols (st : PState) (i : Nat) : List (List Char) → List (List Char) × PState
  | [] => ([], st)
  | col :: cols =>
    let (outCol, st') :=
      if '(' ∈ col then (col, st)
      else if '.' ∈ col then
        match splitOnC '.' col with
        | [tableRef, colName] =>
          let base := if 1 < i then "group_col_" ++ natDec i else "group_col"
          let pname := makeParamName st.paramNames base
          (tableRef ++ '.' :: mkToken pname,
            addParam st pname "string" "Column to group by" (some (String.mk colName)))
        | _ => (col, st)
      else if isFullIdent col then
        let base := if 1 < i then "group_col_" ++ natDec i else "group_col"
        let pname := makeParamName st.paramNames base
        (mkToken pname,
          addParam st pname "string" "Column to group by" (some (String.mk col)))
      else (col, st)
    let (outCols, st'') := processGroupCols st' (i + 1) cols
    (outCol :: outCols, st'')

/-- The group_replacer closure. -/
def groupReplacer (st : PState) (groupKw colsStr matched rest' : List Char) :
    MatchOut × PState :=
  if containsSub tokenMarker colsStr then (⟨matched, matched, rest'⟩, st)
  else
    let cols := (splitOnC ',' colsStr).map stripWS
    let (outCols, st') := processGroupCols st 1 cols
    (⟨groupKw ++ ' ' :: intercalateC ", ".data outCols, matched, rest'⟩, st')

/-- Step for the GROUP BY pass. -/
def groupStep (st : PState) (rev rest : List Char) : Option (MatchOut × PState) :=
  match rest with
  | c :: _ =>
    if boundaryBefore rev c then
      match kwTryCI "GROUP".data rest with
      | some (g1, r1) =>
        match wsTake1 r1 with
        | some (wsA, r2) =>
          match kwTryCI "BY".data r2 with
          | some (g2, r3) =>
            let groupKw := g1 ++ wsA ++ g2
            let wsRun := r3.takeWhile isWS
            let w := wsRun.length
            if w = 0 then none
            else
              match r3.drop w with
              | c0 :: rem0 =>
                -- lazy content must be nonempty before the first lookahead test:
                -- the first candidate end is right after c0
                let primary :=
                  if c0 == ';' then none
                  else
                    match groupScanContent 1 rem0 with
                    | some (contentLen, remAt) =>
                      some (((r3.drop w).take contentLen, r3.take (w + contentLen), remAt))
                    | none => none
                match primary with
                | some (colsStr, consumed, remAt) =>
                  some (groupReplacer st groupKw colsStr (groupKw ++ consumed) remAt)
                | none =>
                  -- fallback: run length ≥ 3, keyword right after the run
                  if 3 ≤ w && groupLookKw (c0 :: rem0) then
                    some (groupReplacer st groupKw ((r3.take (w - 1)).drop (w - 2))
                      (groupKw ++ r3.take (w - 1)) (r3.drop (w - 1)))
                  else none
              | [] =>
                -- everything after GROUP BY is whitespace: the lookahead `$`
                -- alternative needs `\s+` before it, available iff w ≥ 3
                if 3 ≤ w then
                  some (groupReplacer st groupKw ((r3.take (w - 1)).drop (w - 2))
                    (groupKw ++ r3.take (w - 1)) (r3.drop (w - 1)))
                else none
          | none => none
        | none => none
      | none => none
    else none
  | [] => none

/-! ### Pass 8: special clauses (SQLParameterizer._parameterize_special_clauses) -/

/-- The limit_replacer closure; the parameter name is the fixed `"limit_n"`
and the emitted keyword is the literal `LIMIT` regardless of matched case. -/
def limitReplacer (st : PState) (value matched rest' : List Char) : MatchOut × PState :=
  if containsSub tokenMarker value then (⟨matched, matched, rest'⟩, st)
  else
    let st' := addParam st "limit_n" "string" "Maximum number of rows" (some (String.mk value))
    (⟨"LIMIT ".data ++ mkToken "limit_n", matched, rest'⟩, st')

/-- Step for `re.sub(r'\bLIMIT\s+(\d+)', ..., re.I)`. -/
def limitStep (st : PState) (rev rest : List Char) : Option (MatchOut × PState) :=
  match rest with
  | c :: _ =>
    if boundaryBefore rev c then
      match kwTryCI "LIMIT".data rest with
      | some (kwText, r1) =>
        match wsTake1 r1 with
        | some (ws, r2) =>
          let ds := r2.takeWhile Char.isDigit
          if ds.isEmpty then none
          else some (limitReplacer st ds (kwText ++ ws ++ ds) (r2.drop ds.length))
        | none => none
      | none => none
    else none
  | [] => none

/-- The offset_replacer closure. -/
def offsetReplacer (st : PState) (value matched rest' : List Char) : MatchOut × PState :=
  if containsSub tokenMarker value then (⟨matched, matched, rest'⟩, st)
  else
    let st' := addParam st "offset_n" "string" "Number of rows to skip" (some (String.mk value))
    (⟨"OFFSET ".data ++ mkToken "offset_n", matched, rest'⟩, st')

/-- Step for `re.sub(r'\bOFFSET\s+(\d+)', ..., re.I)`. -/
def offsetStep (st : PState) (rev rest : List Char) : Option (MatchOut × PState) :=
  match rest with
  | c :: _ =>
    if boundaryBefore rev c then
      match kwTryCI "OFFSET".data rest with
      | some (kwText, r1) =>
        match wsTake1 r1 with
        | some (ws, r2) =>
          let ds := r2.takeWhile Char.isDigit
          if ds.isEmpty then none
          else some (offsetReplacer st ds (kwText ++ ws ++ ds) (r2.drop ds.length))
        | none => none
      | none => none
    else none
  | [] => none

/-- Take the ORDER BY expression `[a-zA-Z_][\w\.]*(?:\([^)]*\))?`: an
identifier-with-dots, optionally followed by a parenthesised argument list
(dropped again if the closing parenthesis is missing). -/
def exprTake (s : List Char) : Option (List Char × List Char) :=
  match s with
  | c :: cs =>
    if c.isAlpha || c == '_' then
      let tail := cs.takeWhile (fun x => isWordChar x || x == '.')
      let base := c :: tail
      let r5 := cs.drop tail.length
      match r5 with
      | '(' :: pr =>
        let inner := pr.takeWhile (fun x => !(x == ')'))
        match pr.drop inner.length with
        | ')' :: r6 => some (base ++ '(' :: (inner ++ [')']), r6)
        | _ => some (base, r5)
      | _ => some (base, r5)
    else none
  | [] => none

/-- The order_replacer closure; `exprRaw` is group 1 (stripped by the
replacer), `dir` is the optional direction group.  The emitted keyword text
is the literal `ORDER BY`. -/
def orderReplacer (st : PState) (exprRaw : List Char) (dir : Option (List Char))
    (matched rest' : List Char) : MatchOut × PState :=
  let expr := stripWS exprRaw
  if containsSub tokenMarker expr then (⟨matched, matched, rest'⟩, st)
  else if '(' ∈ expr && ')' ∈ expr then
    match dir with
    | some d =>
      if (stripWS d).isEmpty then (⟨matched, matched, rest'⟩, st)
      else
        let st' := addParam st "order_dir" "string" "Sort direction (ASC/DESC)"
          (some (String.mk (stripWS d)))
        (⟨"ORDER BY ".data ++ expr ++ ' ' :: mkToken "order_dir", matched, rest'⟩, st')
    | none => (⟨matched, matched, rest'⟩, st)
  else
    let st1 := addParam st "order_col" "string" "Column to order by" (some (String.mk expr))
    match dir with
    | some d =>
      if (stripWS d).isEmpty then
        (⟨"ORDER BY ".data ++ mkToken "order_col", matched, rest'⟩, st1)
      else
        let st2 := addParam st1 "order_dir" "string" "Sort direction (ASC/DESC)"
          (some (String.mk (stripWS d)))
        (⟨"ORDER BY ".data ++ (mkToken "order_col" ++ ' ' :: mkToken "order_dir"),
          matched, rest'⟩, st2)
    | none => (⟨"ORDER BY ".data ++ mkToken "order_col", matched, rest'⟩, st1)

/-- Step for
`re.sub(r'\bORDER\s+BY\s+([a-zA-Z_][\w\.]*(?:\([^)]*\))?)\s*(ASC|DESC)?', ..., re.I)`.
Note that the greedy `\s*` consumes trailing whitespace even when no
direction follows (the replacement then glues directly onto what follows,
as the Python engine does). -/
def orderStep (st : PState) (rev rest : List Char) : Option (MatchOut × PState) :=
  match rest with
  | c :: _ =>
    if boundaryBefore rev c then
      match kwTryCI "ORDER".data rest with
      | some (o1, r1) =>
        match wsTake1 r1 with
        | some (w1, r2) =>
          match kwTryCI "BY".data r2 with
          | some (o2, r3) =>
            match wsTake1 r3 with
            | some (w2, r4) =>
              match exprTake r4 with
              | some (exprRaw, r5) =>
                let wsStar := r5.takeWhile isWS
                let r6 := r5.drop wsStar.length
                match kwTryCI "ASC".data r6 with
                | some (dText, r7) =>
                  some (orderReplacer st exprRaw (some dText)
                    (o1 ++ w1 ++ o2 ++ w2 ++ exprRaw ++ wsStar ++ dText) r7)
                | none =>
                  match kwTryCI "DESC".data r6 with
                  | some (dText, r7) =>
                    some (orderReplacer st exprRaw (some dText)
                      (o1 ++ w1 ++ o2 ++ w2 ++ exprRaw ++ wsStar ++ dText) r7)
                  | none =>
                    some (orderReplacer st exprRaw none
                      (o1 ++ w1 ++ o2 ++ w2 ++ exprRaw ++ wsStar) r6)
              | none => none
            | none => none
          | none => none
        | none => none
      | none => none
    else none
  | [] => none

/-! ### The parameterize pipeline (SQLParameterizer.parameterize) -/

/-- Python `not sql or not sql.strip()`. -/
def blankStr (sql : String) : Bool := sql.data.all isWS

/-- The ordered pass pipeline run on a non-blank input, starting from the
freshly reset state. -/
def pipeline (pt pc : Bool) (st0 : PState) (s : List Char) : List Char × PState :=
  let r1 := runPass (quoteStep '"') st0 s
  let r2 := runPass (quoteStep '\'') r1.2 r1.1
  let r3 := runPass numberStep r2.2 r2.1
  let r4 := if pt then runPass tablesStep r3.2 r3.1 else r3
  let r5 := if pc then runPass selectStep r4.2 r4.1 else r4
  let r6 := if pc then runPass whereStep r5.2 r5.1 else r5
  let r7 := if pc then runPass joinStep r6.2 r6.1 else r6
  let r8 := runPass groupStep r7.2 r7.1
  let r9 := runPass limitStep r8.2 r8.1
  let r10 := runPass offsetStep r9.2 r9.1
  runPass orderStep r10.2 r10.1

/-- SQLParameterizer.parameterize with explicit instance state: takes the
incoming instance state, returns the `(templated_sql, params)` pair together
with the instance state after the call.  A blank input returns `(sql, [])`
before the state reset (the early return of the Python code); otherwise the
state is reset and the pipeline runs.  The flags are the constructor
arguments `parameterize_tables` / `parameterize_columns` (`min_params` is
never read by `parameterize` and is omitted). -/
def parameterizeSt (pt pc : Bool) (st : PState) (sql : String) :
    (String × List Param) × PState :=
  if blankStr sql then ((sql, []), st)
  else
    let (out, st') := pipeline pt pc ⟨[], []⟩ sql.data
    ((String.mk out, st'.params), st')

/-- SQLParameterizer.parameterize as a function of the input alone (the
returned pair never depends on the incoming instance state, see
`claim9_amended`). -/
def parameterize (pt pc : Bool) (sql : String) : String × List Param :=
  (parameterizeSt pt pc ⟨[], []⟩ sql).1

/-! ### Placeholder token scanning (src/validation.py, src/quality.py) -/

/-- Match `\{\{\.[\w]+\}\}` at the current position, returning the name and
the rest. -/
def tokenAt : List Char → Option (List Char × List Char)
  | '\x7b' :: '\x7b' :: '.' :: r =>
    let name := r.takeWhile isWordChar
    if name.isEmpty then none
    else
      match r.drop name.length with
      | '\x7d' :: '\x7d' :: rest' => some (name, rest')
      | _ => none
  | _ => none

/-- The scan of `re.findall(r'\{\{\.(\w+)\}\}', sql)` (fuel = input length). -/
def findTokensAux : Nat → List Char → List (List Char)
  | 0, _ => []
  | _ + 1, [] => []
  | fuel + 1, c :: cs =>
    match tokenAt (c :: cs) with
    | some (name, rest') => name :: findTokensAux fuel rest'
    | none => findTokensAux fuel cs

/-- Names of all placeholder tokens occurring in the SQL, in scan order
(validation.py line 33). -/
def findTokens (sql : String) : List String :=
  (findTokensAux sql.data.length sql.data).map String.mk

/-- The scan of `re.sub(r'\{\{\.[\w]+\}\}', '', sql)` (quality.py line 125). -/
def removeTokensAux : Nat → List Char → List Char
  | 0, rest => rest
  | _ + 1, [] => []
  | fuel + 1, c :: cs =>
    match tokenAt (c :: cs) with
    | some (_, rest') => removeTokensAux fuel rest'
    | none => c :: removeTokensAux fuel cs

/-- Remove all placeholder tokens from the SQL. -/
def removeTokens (s : List Char) : List Char := removeTokensAux s.length s

/-! ### Quality scoring (src/quality.py) -/

/-- Insert into a modelled Python set (list used only through membership and
size). -/
def insertNew (x : String) (l : List String) : List String :=
  if x ∈ l then l else x :: l

/-- The semantic category tag derived from a (lowercased) parameter name in
calculate_parameter_score. -/
def paramTypeTag (nameLower : String) : Option String :=
  let n := nameLower.data
  if containsSub "table".data n then some "table"
  else if containsSub "col".data n || containsSub "column".data n then some "column"
  else if containsSub "value".data n || containsSub "threshold".data n then some "value"
  else if containsSub "limit".data n || containsSub "offset".data n then some "pagination"
  else if containsSub "order".data n || containsSub "sort".data n then some "sorting"
  else if containsSub "where".data n || containsSub "filter".data n
      || containsSub "join".data n || containsSub "group".data n then some "filter"
  else none

/-- The `param_types` set accumulated over the parameter list. -/
def paramCategories (params : List Param) : List String :=
  params.foldl
    (fun acc p =>
      match paramTypeTag (String.mk (lowerChars p.name.data)) with
      | some t => insertNew t acc
      | none => acc)
    []

/-- The `type_set` of distinct parameter type strings. -/
def paramTypeSet (params : List Param) : List String :=
  params.foldl (fun acc p => insertNew p.type acc) []

/-- quality.calculate_parameter_score: 0-40 points. -/
def calculateParameterScore (params : List Param) : Int :=
  if params.isEmpty then 0
  else
    let a : Int :=
      if 5 ≤ params.length then 15
      else if 3 ≤ params.length then 10
      else if 1 ≤ params.length then 5
      else 0
    let b : Int := min ((paramCategories params).length * 3 : Int) 15
    let c : Int := min ((paramTypeSet params).length * 5 : Int) 10
    min (a + b + c) 40

/-- quality.calculate_complexity_score: 0-30 points.  Note that the
nested-query bonus (source line 81) counts occurrences of `'SELECT'` in the
raw SQL, case-sensitively, unlike every other check which uses the
uppercased SQL. -/
def calculateComplexityScore (sql : String) : Int :=
  let u := upperChars sql.data
  let s1 : Int := if containsSub "SELECT".data u then 5 else 0
  let s2 : Int :=
    if containsSub "JOIN".data u then
      8 + min ((countSub "JOIN".data u : Int) - 1) 2 * 2
    else 0
  let s3 : Int := if containsSub "GROUP BY".data u then 7 else 0
  let s4 : Int :=
    if containsSub "COUNT(".data u || containsSub "SUM(".data u
        || containsSub "AVG(".data u || containsSub "MAX(".data u
        || containsSub "MIN(".data u then 5
    else 0
  let s5 : Int := if containsSub "WHERE".data u then 2 else 0
  let s6 : Int := if containsSub "HAVING".data u then 3 else 0
  let s7 : Int := if 1 < countSub "SELECT".data sql.data then 5 else 0
  let s8 : Int := if containsSub "DISTINCT".data u then 2 else 0
  min (s1 + s2 + s3 + s4 + s5 + s6 + s7 + s8) 30

/-- The keyword list of calculate_description_score. -/
def descKeywords : List String :=
  ["how many", "what", "which", "list", "show", "return", "find",
   "calculate", "count", "average", "maximum", "minimum", "total"]

/-- quality.calculate_description_score: 0-20 points. -/
def calculateDescriptionScore (question : String) (_sql : String) : Int :=
  if question.data.isEmpty then 0
  else
    let lenScore : Int :=
      if 100 ≤ question.length then 10
      else if 50 ≤ question.length then 7
      else if 20 ≤ question.length then 4
      else 2
    let ql := lowerChars question.data
    let kwCount : Int := ((descKeywords.filter (fun kw => containsSub kw.data ql)).length : Int)
    min (lenScore + min (kwCount * 2) 10) 20

/-- At-position test for a quoted literal with at least two content
characters (`re.search(r"'[^']{2,}'", sql)` and the double-quote variant). -/
def quotedGE2At (q : Char) (s : List Char) : Bool :=
  match s with
  | c :: cs =>
    c == q &&
      (let content := cs.takeWhile (fun x => !(x == q))
       decide (2 ≤ content.length) && !(cs.drop content.length).isEmpty)
  | [] => false

/-- Plain search scan without look-behind. -/
def searchScan (p : List Char → Bool) : List Char → Bool
  | [] => false
  | c :: cs => p (c :: cs) || searchScan p cs

/-- Search for `\b\d{2,}\b`: a maximal digit run of length ≥ 2 with word
boundaries on both sides (shrinking the greedy `\d{2,}` can never repair a
failed trailing `\b`, because the next character would then be a digit). -/
def digits2Search (s : List Char) : Bool :=
  existsScan
    (fun rev rest =>
      match rest with
      | c :: _ =>
        c.isDigit && boundaryBefore rev c &&
          (let ds := rest.takeWhile Char.isDigit
           decide (2 ≤ ds.length) && boundaryAfterWord (rest.drop ds.length))
      | [] => false)
    [] s

/-- The `(?!\s*\()` negative lookahead after a prefix of the identifier;
`\s*` then an opening parenthesis. -/
def parenAfter (s : List Char) : Bool :=
  match s.dropWhile isWS with
  | '(' :: _ => true
  | _ => false

/-- Search for `\bFROM\s+[a-zA-Z_]\w+(?!\s*\()` (case-sensitive, no re.I in
the source).  The greedy `\w+` backtracks through its prefixes of length
≥ 1 until the negative lookahead succeeds; for any proper prefix the next
character is a word character, so the lookahead succeeds as soon as the
identifier tail has length ≥ 2, and for a tail of length exactly 1 the
lookahead is evaluated on what follows the identifier. -/
def fromIdentSearch (s : List Char) : Bool :=
  existsScan
    (fun rev rest =>
      match rest with
      | 'F' :: _ =>
        boundaryBefore rev 'F' && hasPrefixC "FROM".data rest &&
          (let r1 := rest.drop 4
           let ws := r1.takeWhile isWS
           !ws.isEmpty &&
             (match r1.drop ws.length with
              | c :: cs =>
                (c.isAlpha || c == '_') &&
                  (let tail := cs.takeWhile isWordChar
                   if tail.isEmpty then false
                   else if 2 ≤ tail.length then true
                   else !parenAfter (cs.drop tail.length))
              | [] => false))
      | _ => false)
    [] s

/-- quality.calculate_reusability_score: starts at 10, penalties, floored
at 0. -/
def calculateReusabilityScore (sql : String) (_params : List Param) : Int :=
  let s := sql.data
  let p1 : Int :=
    if searchScan (quotedGE2At '\'') s || searchScan (quotedGE2At '"') s then 3 else 0
  let p2 : Int := if digits2Search (removeTokens s) then 2 else 0
  let p3 : Int :=
    if fromIdentSearch s && !containsSub "\x7b\x7b.table".data s then 2 else 0
  max (10 - p1 - p2 - p3) 0

/-- The per-component breakdown dict of calculate_tool_quality_score. -/
structure Breakdown where
  parameters : Int
  complexity : Int
  description : Int
  reusability : Int
deriving Repr, DecidableEq

/-- quality.calculate_tool_quality_score: the four components and their
plain sum. -/
def calculateToolQualityScore (sql : String) (params : List Param) (question : String) :
    Int × Breakdown :=
  let p := calculateParameterScore params
  let c := calculateComplexityScore sql
  let d := calculateDescriptionScore question sql
  let r := calculateReusabilityScore sql params
  (p + c + d + r, ⟨p, c, d, r⟩)

/-! ### Validation (src/validation.py) -/

/-- Anchored match of `r'^\s*SELECT\s+\*\s+FROM\s+\w+\s*;?\s*$'` (re.I), the
"too simple" check. -/
def tooSimpleMatch (sql : String) : Bool :=
  let r0 := sql.data.dropWhile isWS
  match kwTryCI "SELECT".data r0 with
  | none => false
  | some (_, r1) =>
    match wsTake1 r1 with
    | none => false
    | some (_, r2) =>
      match r2 with
      | '*' :: r3 =>
        match wsTake1 r3 with
        | none => false
        | some (_, r4) =>
          match kwTryCI "FROM".data r4 with
          | none => false
          | some (_, r5) =>
            match wsTake1 r5 with
            | none => false
            | some (_, r6) =>
              let w := r6.takeWhile isWordChar
              if w.isEmpty then false
              else
                let r7 := (r6.drop w.length).dropWhile isWS
                let r8 := match r7 with | ';' :: t => t | _ => r7
                (r8.dropWhile isWS).isEmpty
      | _ => false

/-- Render an integer-valued score the way Python's `f"{v:.1f}"` does. -/
def fmtScore1 (n : Int) : String := natDec n.toNat ++ ".0"

/-- validation.validate_tool_advanced: sequential checks, first failure
wins; returns `(is_valid, error_message, quality_score)`. -/
def validateToolAdvanced (sql : String) (params : List Param) (question : String)
    (minScore : Int) : Bool × String × Int :=
  if blankStr sql then (false, "Empty SQL", 0)
  else if params.length < 1 then (false, "No parameters - not reusable", 0)
  else if tooSimpleMatch sql then (false, "Too simple - just SELECT * FROM table", 0)
  else if (findTokens sql).isEmpty then (false, "Parameters defined but not used in SQL", 0)
  else if question.data.isEmpty || question.length < 5 then
    (false, "No meaningful description", 0)
  else
    let sb := calculateToolQualityScore sql params question
    if sb.1 < minScore then
      (false,
        "Quality score too low: " ++ fmtScore1 sb.1 ++ "/100 (parameters=" ++
          fmtScore1 sb.2.parameters ++ ", complexity=" ++ fmtScore1 sb.2.complexity ++
          ", description=" ++ fmtScore1 sb.2.description ++ ", reusability=" ++
          fmtScore1 sb.2.reusability ++ ")", sb.1)
    else (true, "", sb.1)

/-! ### Smart tool names (src/utils.py, generate_smart_tool_name) -/

/-- Operation name from `sql_upper.strip().startswith(...)`. -/
def smartOpName (sql : String) : String :=
  let su := stripWS (upperChars sql.data)
  if hasPrefixC "SELECT".data su then "select"
  else if hasPrefixC "INSERT".data su then "insert"
  else if hasPrefixC "UPDATE".data su then "update"
  else if hasPrefixC "DELETE".data su then "delete"
  else if hasPrefixC "CREATE".data su then "create"
  else if hasPrefixC "ALTER".data su then "alter"
  else if hasPrefixC "DROP".data su then "drop"
  else "query"

/-- At-position test for `\bKW\s*\(` (re.I). -/
def kwParenAt (kw : String) (rev rest : List Char) : Bool :=
  match rest with
  | c :: _ => boundaryBefore rev c && aggKwAt kw rest
  | [] => false

/-- At-position test for `\bKW\b` (re.I). -/
def kwWordAt (kw : String) (rev rest : List Char) : Bool :=
  match rest with
  | c :: _ =>
    boundaryBefore rev c &&
      (match kwTryCI kw.data rest with
       | some (_, r) => boundaryAfterWord r
       | none => false)
  | [] => false

/-- At-position test for `\bK1\s+K2\b` (re.I). -/
def kw2WordAt (k1 k2 : String) (rev rest : List Char) : Bool :=
  match rest with
  | c :: _ =>
    boundaryBefore rev c &&
      (match kwTryCI k1.data rest with
       | some (_, r1) =>
         (match wsTake1 r1 with
          | some (_, r2) =>
            (match kwTryCI k2.data r2 with
             | some (_, r3) => boundaryAfterWord r3
             | none => false)
          | none => false)
       | none => false)
  | [] => false

/-- At-position test for `\b(INNER\s+)?JOIN\b` (re.I): the optional greedy
group tries `INNER\s+JOIN` first, then plain `JOIN`. -/
def joinAt (rev rest : List Char) : Bool :=
  kw2WordAt "INNER" "JOIN" rev rest || kwWordAt "JOIN" rev rest

/-- The structural feature tags detected by generate_smart_tool_name, in the
source's append order. -/
def smartFeatures (sql : String) : List String :=
  let s := sql.data
  let f1 :=
    if existsScan (kwParenAt "COUNT") [] s then ["count"]
    else if existsScan (kwParenAt "SUM") [] s then ["sum"]
    else if existsScan
        (fun rev rest => kwParenAt "AVG" rev rest || kwParenAt "MAX" rev rest
          || kwParenAt "MIN" rev rest) [] s then ["aggregate"]
    else []
  let f2 := if existsScan (kw2WordAt "GROUP" "BY") [] s then ["grouped"] else []
  let f3 :=
    if existsScan joinAt [] s then ["joined"]
    else if existsScan (kw2WordAt "LEFT" "JOIN") [] s then ["left_joined"]
    else if existsScan (kw2WordAt "RIGHT" "JOIN") [] s then ["right_joined"]
    else []
  let f4 := if existsScan (kwWordAt "WHERE") [] s then ["filtered"] else []
  let f5 := if existsScan (kw2WordAt "ORDER" "BY") [] s then ["sorted"] else []
  let f6 := if existsScan (kwWordAt "LIMIT") [] s then ["limited"] else []
  let f7 := if existsScan (kwWordAt "OFFSET") [] s then ["offset"] else []
  let f8 := if existsScan (kwWordAt "HAVING") [] s then ["having"] else []
  let f9 := if existsScan (kwWordAt "DISTINCT") [] s then ["distinct"] else []
  f1 ++ f2 ++ f3 ++ f4 ++ f5 ++ f6 ++ f7 ++ f8 ++ f9

/-- The fixed priority order of feature tags. -/
def priorityOrder : List String :=
  ["count", "sum", "aggregate", "grouped", "joined", "left_joined",
   "filtered", "sorted", "limited", "distinct", "having", "offset"]

/-- A character allowed by the name-sanitising class `[a-z0-9_]`. -/
def keepNameChar (c : Char) : Bool := isLowerAlnum c || c == '_'

/-- utils.generate_smart_tool_name. -/
def generateSmartToolName (sql : String) (_question : String) : String :=
  let feats := smartFeatures sql
  let sortedFeats := priorityOrder.filter (fun f => f ∈ feats)
  let parts := smartOpName sql :: sortedFeats.take 3
  let name0 := intercalateC ['_'] (parts.map String.data)
  let name1 := squashRunsAux keepNameChar false (lowerChars name0)
  let name2 := stripChar '_' (squashRunsAux (fun c => !(c == '_')) false name1)
  let name3 := if 50 < name2.length then rstripChar '_' (name2.take 50) else name2
  if name3.isEmpty then "query" else String.mk name3

/-- Every string that can become a part of a smart tool name: the eight
operation names and the feature tags reachable through the priority filter
(`left_joined` is unreachable — the plain-JOIN pattern also matches inside
`LEFT JOIN` — and `right_joined` is absent from the priority list). -/
def allowedNameParts : List (List Char) :=
  ["select", "insert", "update", "delete", "create", "alter", "drop", "query",
   "count", "sum", "aggregate", "grouped", "joined", "filtered", "sorted",
   "limited", "distinct", "having", "offset"].map String.data

/-- The claim C1 correspondence property on an output pair of parameterize
(the spec's soundness sentence): every `\{\{.name\}\}` token of the produced
template has exactly one parameter entry with that name, and every parameter
entry's name occurs among the template's tokens. -/
def checkSound (tp : String × List Param) : Bool :=
  let toks := findTokens tp.1
  toks.all (fun t => (tp.2.filter (fun p => p.name == t)).length = 1) &&
  tp.2.all (fun p => p.name ∈ toks)

/-! ## Claims -/

/-- Claim C2, counterexample.  The claim asserts that with default flags the
example query is rewritten to
`SELECT {{.select_col}} FROM {{.table}} WHERE {{.where_col}} > {{.value}} LIMIT {{.limit_n}}`
with 5 parameters.  In fact the WHERE-column pass never fires here: its
operator alternation carries a trailing `\b`, and after the numeric pass the
`>` operator is followed by a space, so `>\b` fails (a word boundary next to
`>` needs an adjacent word character).  The code produces a different
template with 4 parameters. -/
theorem claim2_counterexample :
    ¬((parameterize true true "SELECT name FROM users WHERE age > 30 LIMIT 10").1 =
        "SELECT \x7b\x7b.select_col\x7d\x7d FROM \x7b\x7b.table\x7d\x7d WHERE \x7b\x7b.where_col\x7d\x7d > \x7b\x7b.value\x7d\x7d LIMIT \x7b\x7b.limit_n\x7d\x7d" ∧
      (parameterize true true "SELECT name FROM users WHERE age > 30 LIMIT 10").2.length = 5) := by
  decide

/-- Claim C2, amended: with default flags
(`parameterize_tables=True, parameterize_columns=True`) the example query
`SELECT name FROM users WHERE age > 30 LIMIT 10` is rewritten to
`SELECT {{.select_col}} FROM {{.table}} WHERE age > {{.value}} LIMIT {{.limit_n}}`
with exactly 4 parameters (the WHERE column `age` stays literal because the
operator pattern requires a word character directly after the operator). -/
theorem claim2_amended :
    parameterize true true "SELECT name FROM users WHERE age > 30 LIMIT 10" =
      ("SELECT \x7b\x7b.select_col\x7d\x7d FROM \x7b\x7b.table\x7d\x7d WHERE age > \x7b\x7b.value\x7d\x7d LIMIT \x7b\x7b.limit_n\x7d\x7d",
       [⟨"value", "string", "Numeric value (e.g., 30)"⟩,
        ⟨"table", "string", "Table name (e.g., users)"⟩,
        ⟨"select_col", "string", "Column to select (e.g., name)"⟩,
        ⟨"limit_n", "string", "Maximum number of rows (e.g., 10)"⟩]) := by
  decide

/-- Claim C9, counterexample.  The claim asserts that every invocation of
parameterize resets the instance's parameter list and name set at the start
of the call, including when the input is empty or whitespace-only.  In the
code the blank-input early return happens before the reset, so a blank call
leaves a previously populated instance state untouched. -/
theorem claim9_counterexample :
    ¬((parameterizeSt true true ⟨[⟨"x", "string", "d"⟩], ["x"]⟩ "").2.params = []) := by
  decide

/-- Claim C9, amended: a blank input returns `(sql, [])` and leaves the
instance state unchanged (no reset happens); a non-blank input resets the
state first, so the result — value and post-state — is independent of the
incoming instance state.  In particular no parameter state can leak into the
value returned by any call. -/
theorem claim9_amended (pt pc : Bool) (st : PState) (sql : String) :
    (blankStr sql = true → parameterizeSt pt pc st sql = ((sql, []), st)) ∧
    (blankStr sql = false →
      parameterizeSt pt pc st sql = parameterizeSt pt pc ⟨[], []⟩ sql) := by
  constructor
  · intro h; simp [parameterizeSt, h]
  · intro h; simp [parameterizeSt, h]

/-- Witness for claim9_amended at concrete inputs. -/
theorem claim9_witness :
    (parameterizeSt true true ⟨[⟨"x", "string", "d"⟩], ["x"]⟩ "" =
      (("", []), ⟨[⟨"x", "string", "d"⟩], ["x"]⟩)) ∧
    (parameterizeSt true true ⟨[⟨"x", "string", "d"⟩], ["x"]⟩ "a" =
      parameterizeSt true true ⟨[], []⟩ "a") :=
  ⟨(claim9_amended true true ⟨[⟨"x", "string", "d"⟩], ["x"]⟩ "").1 (by decide),
   (claim9_amended true true ⟨[⟨"x", "string", "d"⟩], ["x"]⟩ "a").2 (by decide)⟩

/-- A SQL string accepted by the too-simple pattern is not blank (the
pattern requires a literal SELECT after the leading whitespace). -/
theorem tooSimple_not_blank (sql : String) (h : tooSimpleMatch sql = true) :
    blankStr sql = false := by
  by_contra hb
  have hall : sql.data.all isWS = true := by
    revert hb; unfold blankStr; cases sql.data.all isWS <;> simp
  have hnil : sql.data.dropWhile isWS = [] := by
    rw [List.dropWhile_eq_nil_iff]
    intro x hx
    exact List.all_eq_true.mp hall x hx
  rw [tooSimpleMatch, hnil] at h
  simp [kwTryCI] at h

/-- Claim C5, counterexample.  The claim asserts the "Too simple" rejection
regardless of the parameters supplied; but the empty-parameter check comes
first in validate_tool_advanced, so with an empty parameter list the message
is "No parameters - not reusable" instead. -/
theorem claim5_counterexample :
    tooSimpleMatch "SELECT * FROM t" = true ∧
      validateToolAdvanced "SELECT * FROM t" [] "a question" 50 ≠
        (false, "Too simple - just SELECT * FROM table", 0) := by
  decide

/-- Claim C5, amended: for every nonempty parameter list, every question
and every threshold, validate_tool_advanced rejects a SQL string matching
the too-simple pattern with the message "Too simple - just SELECT * FROM
table" and score 0. -/
theorem claim5_amended (sql : String) (params : List Param) (question : String)
    (minScore : Int) (hs : tooSimpleMatch sql = true) (hp : params ≠ []) :
    validateToolAdvanced sql params question minScore =
      (false, "Too simple - just SELECT * FROM table", 0) := by
  have hb := tooSimple_not_blank sql hs
  have h1 : ¬(params.length < 1) := by
    cases params with
    | nil => exact absurd rfl hp
    | cons a l => simp
  unfold validateToolAdvanced
  rw [hb, hs]
  simp [h1]

/-- Witness for claim5_amended at concrete inputs. -/
theorem claim5_witness :
    tooSimpleMatch "SELECT * FROM t" = true ∧
      ([⟨"a", "string", "d"⟩] : List Param) ≠ [] ∧
      validateToolAdvanced "SELECT * FROM t" [⟨"a", "string", "d"⟩] "q" 50 =
        (false, "Too simple - just SELECT * FROM table", 0) :=
  ⟨by decide, by decide,
   claim5_amended "SELECT * FROM t" [⟨"a", "string", "d"⟩] "q" 50 (by decide) (by decide)⟩

/-- The complexity score with the nested-query bonus term removed (helper
for stating claim C8; the other seven contributions of
calculate_complexity_score, in source order). -/
def complexityOther (sql : String) : Int :=
  let u := upperChars sql.data
  let s1 : Int := if containsSub "SELECT".data u then 5 else 0
  let s2 : Int :=
    if containsSub "JOIN".data u then
      8 + min ((countSub "JOIN".data u : Int) - 1) 2 * 2
    else 0
  let s3 : Int := if containsSub "GROUP BY".data u then 7 else 0
  let s4 : Int :=
    if containsSub "COUNT(".data u || containsSub "SUM(".data u
        || containsSub "AVG(".data u || containsSub "MAX(".data u
        || containsSub "MIN(".data u then 5
    else 0
  let s5 : Int := if containsSub "WHERE".data u then 2 else 0
  let s6 : Int := if containsSub "HAVING".data u then 3 else 0
  let s8 : Int := if containsSub "DISTINCT".data u then 2 else 0
  s1 + s2 + s3 + s4 + s5 + s6 + s8

/-- Claim C8, counterexample.  The claim asserts the +5 nested-query bonus
whenever SELECT occurs more than once in any letter case; the code counts
`'SELECT'` occurrences in the raw SQL case-sensitively (quality.py line 81),
so a lowercase nested query gets no bonus. -/
theorem claim8_counterexample :
    countSub "SELECT".data (upperChars "select a from (select b from t)".data) = 2 ∧
      calculateComplexityScore "select a from (select b from t)" ≠
        min (complexityOther "select a from (select b from t)" + 5) 30 := by
  decide

/-- Claim C8, amended: the +5 nested-query bonus is included exactly when
the raw SQL contains the uppercase substring `SELECT` more than once
(case-sensitively, unlike the other keyword checks of the scorer). -/
theorem claim8_amended (sql : String) (h : 1 < countSub "SELECT".data sql.data) :
    calculateComplexityScore sql = min (complexityOther sql + 5) 30 := by
  unfold calculateComplexityScore complexityOther
  dsimp only
  rw [if_pos h]
  congr 1
  ring

/-- Witness for claim8_amended at a concrete input. -/
theorem claim8_witness :
    1 < countSub "SELECT".data "SELECT A FROM (SELECT B FROM T)".data ∧
      calculateComplexityScore "SELECT A FROM (SELECT B FROM T)" =
        min (complexityOther "SELECT A FROM (SELECT B FROM T)" + 5) 30 :=
  ⟨by decide, claim8_amended "SELECT A FROM (SELECT B FROM T)" (by decide)⟩

/-- Component bounds: parameter score lies in [0, 40]. -/
theorem calculateParameterScore_bounds (params : List Param) :
    0 ≤ calculateParameterScore params ∧ calculateParameterScore params ≤ 40 := by
  unfold calculateParameterScore
  split
  · omega
  · dsimp only
    split_ifs <;> omega

/-- Component bounds: complexity score lies in [0, 30]. -/
theorem calculateComplexityScore_bounds (sql : String) :
    0 ≤ calculateComplexityScore sql ∧ calculateComplexityScore sql ≤ 30 := by
  unfold calculateComplexityScore
  dsimp only
  split_ifs <;> omega

/-- Component bounds: description score lies in [0, 20]. -/
theorem calculateDescriptionScore_bounds (question sql : String) :
    0 ≤ calculateDescriptionScore question sql ∧
      calculateDescriptionScore question sql ≤ 20 := by
  unfold calculateDescriptionScore
  dsimp only
  split_ifs <;> omega

/-- Component bounds: reusability score lies in [0, 10]. -/
theorem calculateReusabilityScore_bounds (sql : String) (params : List Param) :
    0 ≤ calculateReusabilityScore sql params ∧
      calculateReusabilityScore sql params ≤ 10 := by
  unfold calculateReusabilityScore
  dsimp only
  split_ifs <;> omega

/-- Claim C6: for every sql, parameter list and question, the breakdown
returned by calculate_tool_quality_score satisfies parameters ∈ [0,40],
complexity ∈ [0,30], description ∈ [0,20], reusability ∈ [0,10], and the
returned total is the unweighted sum of the four components (no further
capping at the top level). -/
theorem claim6_breakdown (sql : String) (params : List Param) (question : String) :
    (0 ≤ (calculateToolQualityScore sql params question).2.parameters ∧
      (calculateToolQualityScore sql params question).2.parameters ≤ 40) ∧
    (0 ≤ (calculateToolQualityScore sql params question).2.complexity ∧
      (calculateToolQualityScore sql params question).2.complexity ≤ 30) ∧
    (0 ≤ (calculateToolQualityScore sql params question).2.description ∧
      (calculateToolQualityScore sql params question).2.description ≤ 20) ∧
    (0 ≤ (calculateToolQualityScore sql params question).2.reusability ∧
      (calculateToolQualityScore sql params question).2.reusability ≤ 10) ∧
    (calculateToolQualityScore sql params question).1 =
      (calculateToolQualityScore sql params question).2.parameters +
      (calculateToolQualityScore sql params question).2.complexity +
      (calculateToolQualityScore sql params question).2.description +
      (calculateToolQualityScore sql params question).2.reusability :=
  ⟨calculateParameterScore_bounds params,
   calculateComplexityScore_bounds sql,
   calculateDescriptionScore_bounds question sql,
   calculateReusabilityScore_bounds sql params,
   rfl⟩

/-! ### Claim C7: the name-collision policy of _make_param_name -/

/-- Value of a decimal digit character produced by `Nat.digitChar`. -/
theorem digitChar_val (d : Nat) (h : d < 10) : (Nat.digitChar d).toNat = 48 + d := by
  interval_cases d <;> rfl

/-- Decimal decoding recovers the rendered number (for sufficient fuel). -/
theorem natDecAux_val :
    ∀ fuel n, n ≤ fuel →
      (natDecAux fuel n).foldl (fun acc c => acc * 10 + (c.toNat - 48)) 0 = n := by
  intro fuel
  induction fuel with
  | zero => intro n hn; interval_cases n; rfl
  | succ fuel ih =>
    intro n hn
    unfold natDecAux
    by_cases h0 : n = 0
    · simp [h0]
    · rw [if_neg h0, List.foldl_append]
      have hdiv : n / 10 ≤ fuel := by
        have := Nat.div_lt_self (Nat.pos_of_ne_zero h0) (by norm_num : 1 < 10)
        omega
      rw [ih (n / 10) hdiv]
      simp only [List.foldl_cons, List.foldl_nil]
      rw [digitChar_val (n % 10) (Nat.mod_lt n (by norm_num))]
      omega

/-- Decimal rendering is injective. -/
theorem natDec_inj (m n : Nat) (h : natDec m = natDec n) : m = n := by
  unfold natDec at h
  have hdata := congrArg String.data h
  by_cases hm : m = 0 <;> by_cases hn : n = 0
  · omega
  · rw [if_pos hm, if_neg hn] at hdata
    have := congrArg (List.foldl (fun acc c => acc * 10 + (c.toNat - 48)) 0) hdata
    rw [natDecAux_val n n (le_refl n)] at this
    simp at this
    omega
  · rw [if_neg hm, if_pos hn] at hdata
    have := congrArg (List.foldl (fun acc c => acc * 10 + (c.toNat - 48)) 0) hdata
    rw [natDecAux_val m m (le_refl m)] at this
    simp at this
    omega
  · rw [if_neg hm, if_neg hn] at hdata
    have := congrArg (List.foldl (fun acc c => acc * 10 + (c.toNat - 48)) 0) hdata
    rw [natDecAux_val m m (le_refl m), natDecAux_val n n (le_refl n)] at this
    exact this

/-- Collision candidates with the same base are distinct for distinct
indices. -/
theorem mkCandidate_inj (base : String) (i j : Nat)
    (h : mkCandidate base i = mkCandidate base j) : i = j := by
  unfold mkCandidate at h
  have hdata := congrArg String.data h
  simp only [String.data_append] at hdata
  have h2 : (natDec i).data = (natDec j).data := by simpa using hdata
  exact natDec_inj i j (congrArg String.mk h2)

/-- Pigeonhole: among the candidates `base_1 .. base_(n+1)` (n the length of
the name list) at least one is not in the list. -/
theorem exists_free_candidate (names : List String) (base : String) :
    ∃ j, 1 ≤ j ∧ j ≤ names.length + 1 ∧ mkCandidate base j ∉ names := by
  by_contra hcon
  push_neg at hcon
  have hmaps : ∀ k ∈ Finset.range (names.length + 1),
      (fun k => mkCandidate base (k + 1)) k ∈ names.toFinset := by
    intro k hk
    rw [List.mem_toFinset]
    exact hcon (k + 1) (by omega) (by simp at hk; omega)
  have hinj : Set.InjOn (fun k => mkCandidate base (k + 1))
      (Finset.range (names.length + 1)) := by
    intro a _ b _ hab
    have := mkCandidate_inj base (a + 1) (b + 1) hab
    omega
  have hcard := Finset.card_le_card_of_injOn _ hmaps hinj
  have h2 : names.toFinset.card ≤ names.length := names.toFinset_card_le
  simp only [Finset.card_range] at hcard
  omega

/-- Specification of the collision loop: given that a free candidate exists
within `fuel` steps from `i`, `findIdx` returns the least free index ≥ `i`. -/
theorem findIdx_spec (names : List String) (base : String) :
    ∀ fuel i, (∃ j, i ≤ j ∧ j < i + fuel ∧ mkCandidate base j ∉ names) →
      mkCandidate base (findIdx names base fuel i) ∉ names ∧
        i ≤ findIdx names base fuel i ∧
        ∀ k, i ≤ k → k < findIdx names base fuel i → mkCandidate base k ∈ names := by
  intro fuel
  induction fuel with
  | zero =>
    intro i h
    obtain ⟨j, hj1, hj2, _⟩ := h
    omega
  | succ fuel ih =>
    intro i h
    obtain ⟨j, hj1, hj2, hj3⟩ := h
    unfold findIdx
    split
    · rename_i hmem
      have hij : i ≠ j := fun he => hj3 (he ▸ hmem)
      obtain ⟨h1, h2, h3⟩ := ih (i + 1) ⟨j, by omega, by omega, hj3⟩
      refine ⟨h1, by omega, fun k hk1 hk2 => ?_⟩
      rcases Nat.eq_or_lt_of_le hk1 with he | hl
      · exact he ▸ hmem
      · exact h3 k hl hk2
    · rename_i hmem
      exact ⟨hmem, le_refl i, fun k hk1 hk2 => by omega⟩

/-- Claim C7: within one run, _make_param_name first applies the fixed
renames limit→limit_n and offset→offset_n, then returns the mapped base if
it is not yet registered, and otherwise returns `base_i` for the smallest
positive integer `i` such that `base_i` is not yet registered. -/
theorem claim7_makeParamName (names : List String) (base0 : String) :
    (nameMap base0 ∉ names → makeParamName names base0 = nameMap base0) ∧
    (nameMap base0 ∈ names →
      ∃ i, 1 ≤ i ∧ makeParamName names base0 = mkCandidate (nameMap base0) i ∧
        mkCandidate (nameMap base0) i ∉ names ∧
        ∀ j, 1 ≤ j → j < i → mkCandidate (nameMap base0) j ∈ names) := by
  constructor
  · intro h
    unfold makeParamName
    dsimp only
    rw [if_neg h]
  · intro h
    obtain ⟨j, hj1, hj2, hj3⟩ := exists_free_candidate names (nameMap base0)
    obtain ⟨h1, h2, h3⟩ :=
      findIdx_spec names (nameMap base0) (names.length + 1) 1 ⟨j, hj1, by omega, hj3⟩
    refine ⟨findIdx names (nameMap base0) (names.length + 1) 1, h2, ?_, h1, h3⟩
    unfold makeParamName
    dsimp only
    rw [if_pos h]

/-- Witness for claim7_makeParamName at concrete inputs: a fresh base is
returned unchanged; a clashing base (after the limit→limit_n rename the
name "limit_n" clashes, and "limit_n_1" is taken too) gets the first free
suffix. -/
theorem claim7_witness :
    (nameMap "y" ∉ ["limit_n", "limit_n_1", "x"] ∧
      makeParamName ["limit_n", "limit_n_1", "x"] "y" = nameMap "y") ∧
    (nameMap "limit" ∈ ["limit_n", "limit_n_1", "x"] ∧
      ∃ i, 1 ≤ i ∧
        makeParamName ["limit_n", "limit_n_1", "x"] "limit" = mkCandidate (nameMap "limit") i ∧
        mkCandidate (nameMap "limit") i ∉ ["limit_n", "limit_n_1", "x"] ∧
        ∀ j, 1 ≤ j → j < i → mkCandidate (nameMap "limit") j ∈ ["limit_n", "limit_n_1", "x"]) :=
  ⟨⟨by decide, (claim7_makeParamName ["limit_n", "limit_n_1", "x"] "y").1 (by decide)⟩,
   ⟨by decide, (claim7_makeParamName ["limit_n", "limit_n_1", "x"] "limit").2 (by decide)⟩⟩

/-! ### Claim C3: uniqueness of parameter names

Every pass mutates the state exclusively through `addParam`, which refuses
to add an already-registered name; the single invariant below is preserved
by `addParam` and therefore by every replacer, every step and the whole
pipeline. -/

/-- The SQLParameterizer state invariant: every recorded parameter name is
registered, and the recorded names are pairwise distinct. -/
def StInv (st : PState) : Prop :=
  (∀ p ∈ st.params, p.name ∈ st.paramNames) ∧ (st.params.map Param.name).Nodup

/-- The initial (reset) state satisfies the invariant. -/
theorem stInv_init : StInv ⟨[], []⟩ := ⟨by simp, by simp⟩

/-- addParam preserves the invariant. -/
theorem stInv_addParam (st : PState) (name typ desc : String) (dv : Option String)
    (h : StInv st) : StInv (addParam st name typ desc dv) := by
  unfold addParam
  split
  · exact h
  · rename_i hmem
    obtain ⟨h1, h2⟩ := h
    constructor
    · intro p hp
      rw [List.mem_append] at hp
      rcases hp with hp | hp
      · exact List.mem_cons_of_mem _ (h1 p hp)
      · simp only [List.mem_singleton] at hp
        simp [hp]
    · rw [List.map_append]
      simp only [List.map_cons, List.map_nil]
      rw [List.nodup_append]
      refine ⟨h2, List.nodup_singleton _, fun a ha hb => ?_⟩
      simp only [List.mem_singleton] at hb
      obtain ⟨p, hp, hpn⟩ := List.mem_map.mp ha
      refine hmem ?_
      rw [← hb, ← hpn]
      exact h1 p hp

/-- stringReplacer preserves the invariant. -/
theorem stringReplacer_inv (st : PState) (q : Char) (content rest' : List Char)
    (h : StInv st) : StInv (stringReplacer st q content rest').2 := by
  unfold stringReplacer
  dsimp only
  split_ifs <;> first
    | exact h
    | exact stInv_addParam _ _ _ _ _ h

/-- numberReplacer preserves the invariant. -/
theorem numberReplacer_inv (st : PState) (rev value rest' : List Char)
    (h : StInv st) : StInv (numberReplacer st rev value rest').2 := by
  unfold numberReplacer
  dsimp only
  split_ifs <;> first
    | exact h
    | exact stInv_addParam _ _ _ _ _ h

/-- tablesReplacer preserves the invariant. -/
theorem tablesReplacer_inv (st : PState) (kwText ws table rest' : List Char)
    (h : StInv st) : StInv (tablesReplacer st kwText ws table rest').2 := by
  unfold tablesReplacer
  dsimp only
  split_ifs <;> first
    | exact h
    | exact stInv_addParam _ _ _ _ _ h

/-- The SELECT column fold preserves the invariant. -/
theorem processSelCols_inv :
    ∀ cols (st : PState) (i : Nat), StInv st → StInv (processSelCols st i cols).2 := by
  intro cols
  induction cols with
  | nil => intro st i h; exact h
  | cons col cols ih =>
    intro st i h
    unfold processSelCols
    dsimp only
    split_ifs <;> dsimp only <;> first
      | exact ih _ _ h
      | exact ih _ _ (stInv_addParam _ _ _ _ _ h)

/-- selectReplacer preserves the invariant. -/
theorem selectReplacer_inv (st : PState) (selKw midRaw fromText matched rest' : List Char)
    (h : StInv st) : StInv (selectReplacer st selKw midRaw fromText matched rest').2 := by
  unfold selectReplacer
  dsimp only
  split_ifs <;> dsimp only <;> first
    | exact h
    | exact processSelCols_inv _ _ _ h

/-- whereReplacer preserves the invariant. -/
theorem whereReplacer_inv (st : PState) (whereKw column opText matched rest' : List Char)
    (h : StInv st) : StInv (whereReplacer st whereKw column opText matched rest').2 := by
  unfold whereReplacer
  dsimp only
  split_ifs <;> (try split) <;> first
    | exact h
    | exact stInv_addParam _ _ _ _ _ h

/-- joinSide preserves the invariant. -/
theorem joinSide_inv (st : PState) (side : List Char) (h : StInv st) :
    StInv (joinSide st side).2 := by
  unfold joinSide
  dsimp only
  split_ifs <;> (try split) <;> first
    | exact h
    | exact stInv_addParam _ _ _ _ _ h

/-- joinReplacer preserves the invariant. -/
theorem joinReplacer_inv (st : PState) (onKw leftCol opText rightCol matched rest' : List Char)
    (h : StInv st) : StInv (joinReplacer st onKw leftCol opText rightCol matched rest').2 := by
  unfold joinReplacer
  dsimp only
  split_ifs
  · exact h
  · dsimp only
    exact joinSide_inv _ _ (joinSide_inv _ _ h)

/-- The GROUP BY column fold preserves the invariant. -/
theorem processGroupCols_inv :
    ∀ cols (st : PState) (i : Nat), StInv st → StInv (processGroupCols st i cols).2 := by
  intro cols
  induction cols with
  | nil => intro st i h; exact h
  | cons col cols ih =>
    intro st i h
    unfold processGroupCols
    dsimp only
    split_ifs <;> (try split) <;> dsimp only <;> first
      | exact ih _ _ h
      | exact ih _ _ (stInv_addParam _ _ _ _ _ h)

/-- groupReplacer preserves the invariant. -/
theorem groupReplacer_inv (st : PState) (groupKw colsStr matched rest' : List Char)
    (h : StInv st) : StInv (groupReplacer st groupKw colsStr matched rest').2 := by
  unfold groupReplacer
  dsimp only
  split_ifs <;> dsimp only <;> first
    | exact h
    | exact processGroupCols_inv _ _ _ h

/-- limitReplacer preserves the invariant. -/
theorem limitReplacer_inv (st : PState) (value matched rest' : List Char)
    (h : StInv st) : StInv (limitReplacer st value matched rest').2 := by
  unfold limitReplacer
  dsimp only
  split_ifs <;> first
    | exact h
    | exact stInv_addParam _ _ _ _ _ h

/-- offsetReplacer preserves the invariant. -/
theorem offsetReplacer_inv (st : PState) (value matched rest' : List Char)
    (h : StInv st) : StInv (offsetReplacer st value matched rest').2 := by
  unfold offsetReplacer
  dsimp only
  split_ifs <;> first
    | exact h
    | exact stInv_addParam _ _ _ _ _ h

/-- orderReplacer preserves the invariant. -/
theorem orderReplacer_inv (st : PState) (exprRaw : List Char) (dir : Option (List Char))
    (matched rest' : List Char) (h : StInv st) :
    StInv (orderReplacer st exprRaw dir matched rest').2 := by
  unfold orderReplacer
  dsimp only
  split_ifs <;> (try split) <;> (try split_ifs) <;> first
    | exact h
    | exact stInv_addParam _ _ _ _ _ h
    | exact stInv_addParam _ _ _ _ _ (stInv_addParam _ _ _ _ _ h)

/-- A step preserves the invariant when its match succeeds. -/
def StepInv (step : PState → List Char → List Char → Option (MatchOut × PState)) : Prop :=
  ∀ st rev rest m st', step st rev rest = some (m, st') → StInv st → StInv st'

/-- Second component of an equated optional pair. -/
theorem some_pair_snd {α β : Type} {a : α × β} {m : α} {st' : β}
    (he : some a = some (m, st')) : a.2 = st' := by
  injection he with h
  exact congrArg Prod.snd h

/-- quoteStep preserves the invariant. -/
theorem quoteStep_inv (q : Char) : StepInv (quoteStep q) := by
  intro st rev rest m st' he h
  unfold quoteStep at he
  try dsimp only at he
  repeat' split at he
  all_goals first
    | exact Option.noConfusion he
    | exact some_pair_snd he ▸ stringReplacer_inv _ _ _ _ h

/-- numberStep preserves the invariant. -/
theorem numberStep_inv : StepInv numberStep := by
  intro st rev rest m st' he h
  unfold numberStep at he
  try dsimp only at he
  repeat' split at he
  all_goals first
    | exact Option.noConfusion he
    | exact some_pair_snd he ▸ numberReplacer_inv _ _ _ _ h

/-- tablesStep preserves the invariant. -/
theorem tablesStep_inv : StepInv tablesStep := by
  intro st rev rest m st' he h
  unfold tablesStep at he
  try dsimp only at he
  repeat' split at he
  all_goals first
    | exact Option.noConfusion he
    | exact some_pair_snd he ▸ tablesReplacer_inv _ _ _ _ _ h

/-- selectStep preserves the invariant. -/
theorem selectStep_inv : StepInv selectStep := by
  intro st rev rest m st' he h
  unfold selectStep at he
  try dsimp only at he
  repeat' split at he
  all_goals first
    | exact Option.noConfusion he
    | exact some_pair_snd he ▸ selectReplacer_inv _ _ _ _ _ _ h

/-- whereStep preserves the invariant. -/
theorem whereStep_inv : StepInv whereStep := by
  intro st rev rest m st' he h
  unfold whereStep at he
  try dsimp only at he
  repeat' split at he
  all_goals first
    | exact Option.noConfusion he
    | exact some_pair_snd he ▸ whereReplacer_inv _ _ _ _ _ _ h

/-- joinStep preserves the invariant. -/
theorem joinStep_inv : StepInv joinStep := by
  intro st rev rest m st' he h
  unfold joinStep at he
  try dsimp only at he
  repeat' split at he
  all_goals first
    | exact Option.noConfusion he
    | exact some_pair_snd he ▸ joinReplacer_inv _ _ _ _ _ _ _ h

/-- groupStep preserves the invariant. -/
theorem groupStep_inv : StepInv groupStep := by
  intro st rev rest m st' he h
  unfold groupStep at he
  try dsimp only at he
  repeat' split at he
  all_goals first
    | exact Option.noConfusion he
    | exact some_pair_snd he ▸ groupReplacer_inv _ _ _ _ _ h

/-- limitStep preserves the invariant. -/
theorem limitStep_inv : StepInv limitStep := by
  intro st rev rest m st' he h
  unfold limitStep at he
  try dsimp only at he
  repeat' split at he
  all_goals first
    | exact Option.noConfusion he
    | exact some_pair_snd he ▸ limitReplacer_inv _ _ _ _ h

/-- offsetStep preserves the invariant. -/
theorem offsetStep_inv : StepInv offsetStep := by
  intro st rev rest m st' he h
  unfold offsetStep at he
  try dsimp only at he
  repeat' split at he
  all_goals first
    | exact Option.noConfusion he
    | exact some_pair_snd he ▸ offsetReplacer_inv _ _ _ _ h

/-- orderStep preserves the invariant. -/
theorem orderStep_inv : StepInv orderStep := by
  intro st rev rest m st' he h
  unfold orderStep at he
  try dsimp only at he
  repeat' split at he
  all_goals first
    | exact Option.noConfusion he
    | exact some_pair_snd he ▸ orderReplacer_inv _ _ _ _ _ h

/-- The engine preserves any state property preserved by the step. -/
theorem scanSub_inv (step) (hstep : StepInv step) :
    ∀ fuel (st : PState) (rev rest : List Char),
      StInv st → StInv (scanSub step fuel st rev rest).2 := by
  intro fuel
  induction fuel with
  | zero => intro st rev rest h; exact h
  | succ fuel ih =>
    intro st rev rest h
    cases rest with
    | nil => exact h
    | cons c cs =>
      unfold scanSub
      cases heq : step st rev (c :: cs) with
      | some ms =>
        dsimp only
        rcases hsc : scanSub step fuel ms.2 (ms.1.matched.reverse ++ rev) ms.1.rest
          with ⟨out2, st2⟩
        have := ih ms.2 (ms.1.matched.reverse ++ rev) ms.1.rest
          (hstep st rev (c :: cs) ms.1 ms.2 (by rw [heq]) h)
        rw [hsc] at this
        simpa using this
      | none =>
        dsimp only
        rcases hsc : scanSub step fuel st (c :: rev) cs with ⟨out2, st2⟩
        have := ih st (c :: rev) cs h
        rw [hsc] at this
        simpa using this

/-- Pair-shaped helper: running a pass on the (text, state) pair. -/
theorem runPass_pair_inv (step) (hstep : StepInv step) (x : List Char × PState)
    (h : StInv x.2) : StInv (runPass step x.2 x.1).2 :=
  scanSub_inv step hstep _ _ _ _ h

/-- Conditional pass helper (the optional passes of the pipeline). -/
theorem cond_pass_inv (b : Bool) (step) (hstep : StepInv step) (x : List Char × PState)
    (h : StInv x.2) : StInv (if b then runPass step x.2 x.1 else x).2 := by
  split
  · exact runPass_pair_inv step hstep x h
  · exact h

/-- The whole pipeline preserves the invariant. -/
theorem pipeline_inv (pt pc : Bool) (st0 : PState) (s : List Char) (h : StInv st0) :
    StInv (pipeline pt pc st0 s).2 := by
  unfold pipeline
  dsimp only
  exact runPass_pair_inv _ orderStep_inv _
    (runPass_pair_inv _ offsetStep_inv _
      (runPass_pair_inv _ limitStep_inv _
        (runPass_pair_inv _ groupStep_inv _
          (cond_pass_inv pc _ joinStep_inv _
            (cond_pass_inv pc _ whereStep_inv _
              (cond_pass_inv pc _ selectStep_inv _
                (cond_pass_inv pt _ tablesStep_inv _
                  (runPass_pair_inv _ numberStep_inv _
                    (runPass_pair_inv _ (quoteStep_inv '\'') _
                      (runPass_pair_inv _ (quoteStep_inv '"') (s, st0) h))))))))))

/-- Claim C3: for every input SQL string (and both flags), the parameter
list returned by one parameterize call has pairwise distinct names. -/
theorem claim3_unique_names (pt pc : Bool) (sql : String) :
    ((parameterize pt pc sql).2.map Param.name).Nodup := by
  unfold parameterize parameterizeSt
  split
  · simp
  · dsimp only
    rcases hp : pipeline pt pc ⟨[], []⟩ sql.data with ⟨out, st'⟩
    have := pipeline_inv pt pc ⟨[], []⟩ sql.data stInv_init
    rw [hp] at this
    simpa using this.2

/-! ### Claim C4: the `{{.` guards of the later passes

Support lemmas about substring occurrences and about the characters a
matcher can consume. -/

/-- A prefix occurrence is made of characters of the haystack. -/
theorem hasPrefixC_subset : ∀ (w h : List Char), hasPrefixC w h = true → ∀ a ∈ w, a ∈ h := by
  intro w
  induction w with
  | nil => intro h _ a ha; exact absurd ha (by simp)
  | cons c w' ih =>
    intro h hp a ha
    cases h with
    | nil => exact absurd hp (by simp [hasPrefixC])
    | cons x t =>
      rw [hasPrefixC, Bool.and_eq_true] at hp
      rcases List.mem_cons.mp ha with rfl | ha'
      · exact (eq_of_beq hp.1) ▸ List.mem_cons_self x t
      · exact List.mem_cons_of_mem _ (ih t hp.2 a ha')

/-- A substring occurrence is made of characters of the haystack. -/
theorem containsSub_subset : ∀ (w h : List Char), containsSub w h = true → ∀ a ∈ w, a ∈ h := by
  intro w h
  induction h with
  | nil =>
    intro hc a ha
    cases w with
    | nil => exact absurd ha (by simp)
    | cons c w' => exact absurd hc (by simp [containsSub])
  | cons x t ih =>
    intro hc a ha
    rw [containsSub, Bool.or_eq_true] at hc
    rcases hc with hc | hc
    · exact hasPrefixC_subset w (x :: t) hc a ha
    · exact List.mem_cons_of_mem _ (ih hc a ha)

/-- A string with no opening brace contains no placeholder marker. -/
theorem not_containsSub_marker (s : List Char) (h : '\x7b' ∉ s) :
    containsSub tokenMarker s = false := by
  cases hc : containsSub tokenMarker s with
  | false => rfl
  | true => exact absurd (containsSub_subset _ _ hc '\x7b' (by decide)) h

/-- Occurrences of the marker in `A ++ B` lie in `B` when `A` has no
opening brace (the marker starts with one). -/
theorem marker_append_right (A B : List Char) (hA : '\x7b' ∉ A)
    (h : containsSub tokenMarker (A ++ B) = true) : containsSub tokenMarker B = true := by
  induction A with
  | nil => simpa using h
  | cons a A' ih =>
    rw [List.cons_append, containsSub, Bool.or_eq_true] at h
    rcases h with h | h
    · exfalso
      apply hA
      have : a = '\x7b' := by
        rw [show tokenMarker = '\x7b' :: ['\x7b', '.'] from rfl, hasPrefixC,
          Bool.and_eq_true] at h
        exact (eq_of_beq h.1).symm
      simp [this]
    · exact ih (fun hm => hA (List.mem_cons_of_mem _ hm)) h

/-- Occurrences of the marker in `A ++ B` lie in `A` when `B` contains
neither an opening brace nor a dot (the marker ends with a dot, so an
occurrence straddling the boundary would put one of its characters
into `B`). -/
theorem marker_append_left (A B : List Char) (hB1 : '\x7b' ∉ B) (hB2 : '.' ∉ B)
    (h : containsSub tokenMarker (A ++ B) = true) : containsSub tokenMarker A = true := by
  induction A with
  | nil =>
    exfalso
    exact hB1 (containsSub_subset _ _ (by simpa using h) '\x7b' (by decide))
  | cons a A' ih =>
    rw [List.cons_append, containsSub, Bool.or_eq_true] at h
    rw [containsSub, Bool.or_eq_true]
    rcases h with h | h
    · left
      rw [show tokenMarker = '\x7b' :: '\x7b' :: '.' :: [] from rfl] at h ⊢
      rw [hasPrefixC, Bool.and_eq_true] at h
      obtain ⟨ha, h⟩ := h
      cases A' with
      | nil =>
        exfalso
        cases B with
        | nil => simp [hasPrefixC] at h
        | cons b bs =>
          rw [List.nil_append, hasPrefixC, Bool.and_eq_true] at h
          exact hB1 ((eq_of_beq h.1) ▸ List.mem_cons_self b bs)
      | cons a2 A'' =>
        rw [List.cons_append, hasPrefixC, Bool.and_eq_true] at h
        obtain ⟨ha2, h⟩ := h
        cases A'' with
        | nil =>
          exfalso
          cases B with
          | nil => simp [hasPrefixC] at h
          | cons b bs =>
            rw [List.nil_append, hasPrefixC, Bool.and_eq_true] at h
            exact hB2 ((eq_of_beq h.1) ▸ List.mem_cons_self b bs)
        | cons a3 A''' =>
          rw [List.cons_append, hasPrefixC, Bool.and_eq_true] at h
          obtain ⟨ha3, _⟩ := h
          rw [hasPrefixC, hasPrefixC, hasPrefixC]
          simp [ha, ha2, ha3, hasPrefixC]
    · right
      exact ih h

/-- The characters matched by a case-insensitive keyword uppercase into the
keyword. -/
theorem kwTryCI_chars : ∀ (kw s m r : List Char), kwTryCI kw s = some (m, r) →
    ∀ c ∈ m, c.toUpper ∈ kw := by
  intro kw
  induction kw with
  | nil =>
    intro s m r he c hc
    rw [kwTryCI] at he
    injection he with hp
    injection hp with hm hr
    rw [← hm] at hc
    exact absurd hc (by simp)
  | cons k ks ih =>
    intro s m r he c hc
    cases s with
    | nil => exact Option.noConfusion he
    | cons x xs =>
      rw [kwTryCI] at he
      by_cases hk : (k == x.toUpper) = true
      · rw [if_pos hk] at he
        cases hrec : kwTryCI ks xs with
        | none => rw [hrec] at he; exact Option.noConfusion he
        | some pr =>
          obtain ⟨m', r'⟩ := pr
          rw [hrec] at he
          injection he with hp
          injection hp with hm hr
          rw [← hm] at hc
          rcases List.mem_cons.mp hc with rfl | hc'
          · rw [eq_of_beq hk]
            exact List.mem_cons_self _ _
          · exact List.mem_cons_of_mem _ (ih xs m' r' hrec c hc')
      · rw [if_neg hk] at he
        exact Option.noConfusion he

/-- No opening brace among keyword-matched characters (for a keyword without
an opening brace; braces are fixed by toUpper). -/
theorem kwTryCI_no_brace (kw s m r : List Char) (he : kwTryCI kw s = some (m, r))
    (hk : '\x7b' ∉ kw) : '\x7b' ∉ m := by
  intro hin
  have h := kwTryCI_chars kw s m r he _ hin
  rw [show ('\x7b').toUpper = '\x7b' from by decide] at h
  exact hk h

/-- Characters taken by wsTake1 are whitespace. -/
theorem wsTake1_chars (s ws r : List Char) (he : wsTake1 s = some (ws, r)) :
    ∀ c ∈ ws, isWS c = true := by
  intro c hc
  rw [wsTake1] at he
  split at he
  · exact Option.noConfusion he
  · injection he with hp
    injection hp with hws hr
    rw [← hws] at hc
    exact List.mem_takeWhile_imp hc

/-- No opening brace among whitespace. -/
theorem wsTake1_no_brace (s ws r : List Char) (he : wsTake1 s = some (ws, r)) :
    '\x7b' ∉ ws := by
  intro hin
  have := wsTake1_chars s ws r he _ hin
  simp [isWS] at this

/-- Characters of a matched column reference: letter, digit, underscore
or dot. -/
theorem columnTake_chars (s col r : List Char) (he : columnTake s = some (col, r)) :
    ∀ c ∈ col, (c.isAlpha || c.isDigit || c == '_' || c == '.') = true := by
  intro c hc
  cases s with
  | nil => exact Option.noConfusion he
  | cons x xs =>
    rw [columnTake] at he
    split at he
    · injection he with hp
      injection hp with hcol hr
      rw [← hcol] at hc
      rcases List.mem_cons.mp hc with rfl | hc'
      · rename_i hx
        rw [Bool.or_eq_true] at hx
        rcases hx with hx | hx <;> simp [hx]
      · have := List.mem_takeWhile_imp hc'
        rw [Bool.or_eq_true] at this
        rcases this with h2 | h2
        · rw [isWordChar, Bool.or_eq_true, Bool.or_eq_true] at h2
          rcases h2 with (h2 | h2) | h2 <;> simp [h2]
        · simp [h2]
    · exact Option.noConfusion he

/-- No opening brace in a column reference. -/
theorem columnTake_no_brace (s col r : List Char) (he : columnTake s = some (col, r)) :
    '\x7b' ∉ col := by
  intro hin
  have := columnTake_chars s col r he _ hin
  simp at this

/-- Same character classification for a JOIN side. -/
theorem sideTake_chars (s side r : List Char) (he : sideTake s = some (side, r)) :
    ∀ c ∈ side, (c.isAlpha || c.isDigit || c == '_' || c == '.') = true := by
  intro c hc
  cases s with
  | nil => exact Option.noConfusion he
  | cons x xs =>
    rw [sideTake] at he
    split at he
    · dsimp only at he
      split at he
      · exact Option.noConfusion he
      · injection he with hp
        injection hp with hside hr
        rw [← hside] at hc
        rcases List.mem_cons.mp hc with rfl | hc'
        · have hx : (c.isAlpha || c == '_') = true := by assumption
          rw [Bool.or_eq_true] at hx
          rcases hx with hx | hx <;> simp [hx]
        · have := List.mem_takeWhile_imp hc'
          rw [Bool.or_eq_true] at this
          rcases this with h2 | h2
          · rw [isWordChar, Bool.or_eq_true, Bool.or_eq_true] at h2
            rcases h2 with (h2 | h2) | h2 <;> simp [h2]
          · simp [h2]
    · exact Option.noConfusion he

/-- No opening brace in a JOIN side. -/
theorem sideTake_no_brace (s side r : List Char) (he : sideTake s = some (side, r)) :
    '\x7b' ∉ side := by
  intro hin
  have := sideTake_chars s side r he _ hin
  simp at this

/-- litTry matches exactly the literal. -/
theorem litTry_eq (l : String) (s t r : List Char) (he : litTry l s = some (t, r)) :
    t = l.data := by
  rw [litTry] at he
  split at he
  · injection he with hp
    injection hp with ht hr
    exact ht.symm
  · exact Option.noConfusion he

/-- No opening brace in a two-keyword operator match. -/
theorem ci2Try_no_brace (k1 k2 : String) (s t r : List Char)
    (he : ci2Try k1 k2 s = some (t, r)) (h1 : '\x7b' ∉ k1.data) (h2 : '\x7b' ∉ k2.data) :
    '\x7b' ∉ t := by
  rw [ci2Try] at he
  cases ha : kwTryCI k1.data s with
  | none => rw [ha] at he; exact Option.noConfusion he
  | some p1 =>
    obtain ⟨m1, r1⟩ := p1
    rw [ha] at he
    dsimp only at he
    cases hb : wsTake1 r1 with
    | none => rw [hb] at he; exact Option.noConfusion he
    | some p2 =>
      obtain ⟨ws, r2⟩ := p2
      rw [hb] at he
      dsimp only at he
      cases hcm : kwTryCI k2.data r2 with
      | none => rw [hcm] at he; exact Option.noConfusion he
      | some p3 =>
        obtain ⟨m2, r3⟩ := p3
        rw [hcm] at he
        dsimp only at he
        injection he with hp
        injection hp with ht hr
        rw [← ht]
        intro hin
        rcases List.mem_append.mp hin with hin | hin
        · rcases List.mem_append.mp hin with hin | hin
          · exact kwTryCI_no_brace _ _ _ _ ha h1 hin
          · exact wsTake1_no_brace _ _ _ hb hin
        · exact kwTryCI_no_brace _ _ _ _ hcm h2 hin

/-- An alternative chosen by firstOpBd comes from the alternation list. -/
theorem firstOpBd_from_list :
    ∀ (alts : List (List Char → Option (List Char × List Char))) (s t r : List Char),
      firstOpBd alts s = some (t, r) → ∃ a ∈ alts, a s = some (t, r) := by
  intro alts
  induction alts with
  | nil => intro s t r he; exact Option.noConfusion he
  | cons a as ih =>
    intro s t r he
    rw [firstOpBd] at he
    cases ha : a s with
    | none =>
      rw [ha] at he
      obtain ⟨b, hb, hbs⟩ := ih s t r he
      exact ⟨b, List.mem_cons_of_mem _ hb, hbs⟩
    | some p =>
      obtain ⟨t0, r0⟩ := p
      rw [ha] at he
      dsimp only at he
      by_cases hbd : opTailBoundary t0 r0 = true
      · rw [if_pos hbd] at he
        injection he with hp
        injection hp with ht hr
        exact ⟨a, List.mem_cons_self _ _, by rw [ha, ht, hr]⟩
      · rw [if_neg hbd] at he
        obtain ⟨b, hb, hbs⟩ := ih s t r he
        exact ⟨b, List.mem_cons_of_mem _ hb, hbs⟩

/-- No opening brace in a WHERE operator match. -/
theorem whereOpTry_no_brace (s t r : List Char) (he : whereOpTry s = some (t, r)) :
    '\x7b' ∉ t := by
  obtain ⟨a, ha, has⟩ := firstOpBd_from_list _ s t r he
  simp only [whereOpTry] at ha ⊢
  fin_cases ha
  · rw [litTry_eq _ _ _ _ has]; decide
  · rw [litTry_eq _ _ _ _ has]; decide
  · rw [litTry_eq _ _ _ _ has]; decide
  · rw [litTry_eq _ _ _ _ has]; decide
  · rw [litTry_eq _ _ _ _ has]; decide
  · rw [litTry_eq _ _ _ _ has]; decide
  · rw [litTry_eq _ _ _ _ has]; decide
  · exact kwTryCI_no_brace _ _ _ _ has (by decide)
  · exact ci2Try_no_brace _ _ _ _ _ has (by decide) (by decide)
  · exact kwTryCI_no_brace _ _ _ _ has (by decide)
  · exact ci2Try_no_brace _ _ _ _ _ has (by decide) (by decide)
  · exact kwTryCI_no_brace _ _ _ _ has (by decide)
  · exact ci2Try_no_brace _ _ _ _ _ has (by decide) (by decide)

/-- No opening brace in a JOIN operator match. -/
theorem joinOpTry_no_brace (s t r : List Char) (he : joinOpTry s = some (t, r)) :
    '\x7b' ∉ t := by
  rw [joinOpTry] at he
  cases h1 : litTry "=" s with
  | some p =>
    obtain ⟨t0, r0⟩ := p
    rw [h1] at he
    dsimp only at he
    injection he with hp
    injection hp with ht hr
    rw [← ht, litTry_eq _ _ _ _ h1]
    decide
  | none =>
    rw [h1] at he
    dsimp only at he
    cases h2 : litTry "!=" s with
    | some p =>
      obtain ⟨t0, r0⟩ := p
      rw [h2] at he
      dsimp only at he
      injection he with hp
      injection hp with ht hr
      rw [← ht, litTry_eq _ _ _ _ h2]
      decide
    | none =>
      rw [h2] at he
      dsimp only at he
      cases h3 : litTry "<>" s with
      | some p =>
        obtain ⟨t0, r0⟩ := p
        rw [h3] at he
        dsimp only at he
        injection he with hp
        injection hp with ht hr
        rw [← ht, litTry_eq _ _ _ _ h3]
        decide
      | none =>
        rw [h3] at he
        dsimp only at he
        cases h4 : litTry ">=" s with
        | some p =>
          obtain ⟨t0, r0⟩ := p
          rw [h4] at he
          dsimp only at he
          injection he with hp
          injection hp with ht hr
          rw [← ht, litTry_eq _ _ _ _ h4]
          decide
        | none =>
          rw [h4] at he
          dsimp only at he
          cases h5 : litTry "<=" s with
          | some p =>
            obtain ⟨t0, r0⟩ := p
            rw [h5] at he
            dsimp only at he
            injection he with hp
            injection hp with ht hr
            rw [← ht, litTry_eq _ _ _ _ h5]
            decide
          | none =>
            rw [h5] at he
            dsimp only at he
            cases h6 : litTry ">" s with
            | some p =>
              obtain ⟨t0, r0⟩ := p
              rw [h6] at he
              dsimp only at he
              injection he with hp
              injection hp with ht hr
              rw [← ht, litTry_eq _ _ _ _ h6]
              decide
            | none =>
              rw [h6] at he
              dsimp only at he
              rw [litTry_eq _ _ _ _ he]
              decide

/-- A case-insensitive keyword match cannot contain a character whose
uppercase form is outside the keyword. -/
theorem kwTryCI_not_mem (kw s m r : List Char) (he : kwTryCI kw s = some (m, r))
    (c : Char) (hk : c.toUpper ∉ kw) : c ∉ m :=
  fun hin => hk (kwTryCI_chars kw s m r he c hin)

/-- A character rejected by the predicate is not among the taken ones. -/
theorem not_mem_takeWhile (p : Char → Bool) (l : List Char) (c : Char)
    (hc : p c = false) : c ∉ l.takeWhile p := by
  intro hin
  have := List.mem_takeWhile_imp hin
  rw [hc] at this
  exact Bool.noConfusion this

/-- The matched field survives limitReplacer. -/
theorem limitReplacer_matched (st : PState) (value matched rest' : List Char) :
    (limitReplacer st value matched rest').1.matched = matched := by
  unfold limitReplacer
  split_ifs <;> rfl

/-- The matched field survives offsetReplacer. -/
theorem offsetReplacer_matched (st : PState) (value matched rest' : List Char) :
    (offsetReplacer st value matched rest').1.matched = matched := by
  unfold offsetReplacer
  split_ifs <;> rfl

/-- The matched field survives whereReplacer. -/
theorem whereReplacer_matched (st : PState) (whereKw column opText matched rest' : List Char) :
    (whereReplacer st whereKw column opText matched rest').1.matched = matched := by
  unfold whereReplacer
  split_ifs <;> (try split) <;> rfl

/-- The matched field survives joinReplacer. -/
theorem joinReplacer_matched (st : PState) (onKw leftCol opText rightCol matched rest' : List Char) :
    (joinReplacer st onKw leftCol opText rightCol matched rest').1.matched = matched := by
  unfold joinReplacer
  split_ifs
  · rfl
  · dsimp only

/-- The matched field survives orderReplacer. -/
theorem orderReplacer_matched (st : PState) (exprRaw : List Char) (dir : Option (List Char))
    (matched rest' : List Char) :
    (orderReplacer st exprRaw dir matched rest').1.matched = matched := by
  unfold orderReplacer
  dsimp only
  repeat' split
  all_goals rfl

/-- The matched field survives groupReplacer. -/
theorem groupReplacer_matched (st : PState) (groupKw colsStr matched rest' : List Char) :
    (groupReplacer st groupKw colsStr matched rest').1.matched = matched := by
  unfold groupReplacer
  dsimp only
  split_ifs
  · rfl
  · rcases hp : processGroupCols st 1 ((splitOnC ',' colsStr).map stripWS) with ⟨o, s2⟩
    rfl

/-- The `{{.` guard of group_replacer: a marker in the column span leaves
the match unchanged. -/
theorem groupReplacer_guard (st : PState) (groupKw colsStr matched rest' : List Char)
    (h : containsSub tokenMarker colsStr = true) :
    (groupReplacer st groupKw colsStr matched rest').1.repl = matched := by
  unfold groupReplacer
  dsimp only
  rw [if_pos h]

/-- The `{{.` guard of order_replacer: a marker in the (stripped) expression
leaves the match unchanged. -/
theorem orderReplacer_guard (st : PState) (exprRaw : List Char) (dir : Option (List Char))
    (matched rest' : List Char) (h : containsSub tokenMarker (stripWS exprRaw) = true) :
    (orderReplacer st exprRaw dir matched rest').1.repl = matched := by
  unfold orderReplacer
  dsimp only
  rw [if_pos h]

/-- Whitespace characters are among six concrete characters. -/
theorem ws_chars (c : Char) (h : isWS c = true) :
    c = ' ' ∨ c = '\t' ∨ c = '\n' ∨ c = '\r' ∨ c = '\x0b' ∨ c = '\x0c' := by
  have h2 : (((((c = ' ' ∨ c = '\t') ∨ c = '\n') ∨ c = '\r') ∨ c = '\x0b') ∨ c = '\x0c') := by
    simpa [isWS] using h
  tauto

/-- A word-or-dot character is not whitespace. -/
theorem wordDot_not_ws (c : Char) (h : (isWordChar c || c == '.') = true) : isWS c = false := by
  cases hws : isWS c with
  | false => rfl
  | true =>
    rcases ws_chars c hws with rfl | rfl | rfl | rfl | rfl | rfl <;>
      simp [isWordChar] at h

/-- A letter-or-underscore character is not whitespace. -/
theorem alpha_not_ws (c : Char) (h : (c.isAlpha || c == '_') = true) : isWS c = false := by
  cases hws : isWS c with
  | false => rfl
  | true =>
    rcases ws_chars c hws with rfl | rfl | rfl | rfl | rfl | rfl <;> simp at h

/-- stripWS is the identity when both ends survive the two dropWhile runs. -/
theorem stripWS_of_ends (e : List Char) (h1 : e.dropWhile isWS = e)
    (h2 : e.reverse.dropWhile isWS = e.reverse) : stripWS e = e := by
  rw [stripWS, h1, h2, List.reverse_reverse]

/-- dropWhile keeps a list whose head fails the predicate. -/
theorem dropWhile_cons_neg (p : Char → Bool) (c : Char) (t : List Char) (hc : p c = false) :
    (c :: t).dropWhile p = c :: t := by
  simp [List.dropWhile_cons, hc]

/-- The reverse of a list ending in a non-whitespace character survives the
dropWhile run. -/
theorem rev_dropWhile_concat (l : List Char) (c : Char) (hc : isWS c = false) :
    (l ++ [c]).reverse.dropWhile isWS = (l ++ [c]).reverse := by
  rw [List.reverse_append]
  exact dropWhile_cons_neg _ _ _ hc

/-- Concatenation reshaping for the parenthesised ORDER BY expression. -/
theorem concat_shape (x : Char) (A B : List Char) :
    (x :: A) ++ '(' :: (B ++ [')']) = ((x :: A) ++ '(' :: B) ++ [')'] := by
  simp

/-- The expression captured by the ORDER BY pass needs no stripping: it
starts with a letter or underscore and ends with a word character, a dot or
a closing parenthesis. -/
theorem exprTake_strip (s e r : List Char) (he : exprTake s = some (e, r)) :
    stripWS e = e := by
  cases s with
  | nil => exact Option.noConfusion he
  | cons x xs =>
    rw [exprTake] at he
    split at he
    case isFalse => exact Option.noConfusion he
    case isTrue hx =>
      dsimp only at he
      have hxws : isWS x = false := alpha_not_ws x hx
      split at he
      · split at he
        · injection he with hp
          injection hp with hepr hr
          rw [← hepr]
          apply stripWS_of_ends
          · exact dropWhile_cons_neg _ _ _ hxws
          · rw [concat_shape]
            exact rev_dropWhile_concat _ _ (by decide)
        · injection he with hp
          injection hp with hepr hr
          rw [← hepr]
          apply stripWS_of_ends
          · exact dropWhile_cons_neg _ _ _ hxws
          · cases htr : (List.takeWhile (fun c => isWordChar c || c == '.') xs).reverse with
            | nil =>
              have ht0 : List.takeWhile (fun c => isWordChar c || c == '.') xs = [] := by
                simpa using congrArg List.reverse htr
              rw [ht0]
              exact dropWhile_cons_neg _ _ _ hxws
            | cons y ys =>
              have hy : y ∈ List.takeWhile (fun c => isWordChar c || c == '.') xs := by
                rw [← List.mem_reverse, htr]
                exact List.mem_cons_self _ _
              have hyp := List.mem_takeWhile_imp hy
              rw [List.reverse_cons, htr, List.cons_append]
              exact dropWhile_cons_neg _ _ _ (wordDot_not_ws y hyp)
      · injection he with hp
        injection hp with hepr hr
        rw [← hepr]
        apply stripWS_of_ends
        · exact dropWhile_cons_neg _ _ _ hxws
        · cases htr : (List.takeWhile (fun c => isWordChar c || c == '.') xs).reverse with
          | nil =>
            have ht0 : List.takeWhile (fun c => isWordChar c || c == '.') xs = [] := by
              simpa using congrArg List.reverse htr
            rw [ht0]
            exact dropWhile_cons_neg _ _ _ hxws
          | cons y ys =>
            have hy : y ∈ List.takeWhile (fun c => isWordChar c || c == '.') xs := by
              rw [← List.mem_reverse, htr]
              exact List.mem_cons_self _ _
            have hyp := List.mem_takeWhile_imp hy
            rw [List.reverse_cons, htr, List.cons_append]
            exact dropWhile_cons_neg _ _ _ (wordDot_not_ws y hyp)

/-- First component of an equated pair. -/
theorem pair_eq_fst {α β : Type} {x : α × β} {m : α} {st' : β} (h : x = (m, st')) :
    x.1 = m := by rw [h]

/-- The LIMIT pass cannot match text containing the placeholder marker:
its pattern consumes only keyword letters, whitespace and digits. -/
theorem limitStep_no_marker (st : PState) (rev rest : List Char) (m : MatchOut) (st' : PState)
    (he : limitStep st rev rest = some (m, st')) :
    containsSub tokenMarker m.matched = false := by
  cases rest with
  | nil => exact Option.noConfusion he
  | cons c cs =>
    rw [limitStep] at he
    by_cases hbd : boundaryBefore rev c = true
    · rw [if_pos hbd] at he
      cases hkw : kwTryCI "LIMIT".data (c :: cs) with
      | none => rw [hkw] at he; exact Option.noConfusion he
      | some p =>
        obtain ⟨kwText, r1⟩ := p
        rw [hkw] at he
        dsimp only at he
        cases hws : wsTake1 r1 with
        | none => rw [hws] at he; exact Option.noConfusion he
        | some p2 =>
          obtain ⟨ws, r2⟩ := p2
          rw [hws] at he
          dsimp only at he
          split at he
          · exact Option.noConfusion he
          · injection he with hp
            have hm : m.matched = kwText ++ ws ++ r2.takeWhile Char.isDigit := by
              rw [← pair_eq_fst hp]
              exact limitReplacer_matched _ _ _ _
            rw [hm]
            apply not_containsSub_marker
            intro hin
            rcases List.mem_append.mp hin with hin | hin
            · rcases List.mem_append.mp hin with hin | hin
              · exact kwTryCI_no_brace _ _ _ _ hkw (by decide) hin
              · exact wsTake1_no_brace _ _ _ hws hin
            · exact not_mem_takeWhile _ _ _ (by decide) hin
    · rw [if_neg hbd] at he
      exact Option.noConfusion he

/-- The OFFSET pass cannot match text containing the placeholder marker. -/
theorem offsetStep_no_marker (st : PState) (rev rest : List Char) (m : MatchOut) (st' : PState)
    (he : offsetStep st rev rest = some (m, st')) :
    containsSub tokenMarker m.matched = false := by
  cases rest with
  | nil => exact Option.noConfusion he
  | cons c cs =>
    rw [offsetStep] at he
    by_cases hbd : boundaryBefore rev c = true
    · rw [if_pos hbd] at he
      cases hkw : kwTryCI "OFFSET".data (c :: cs) with
      | none => rw [hkw] at he; exact Option.noConfusion he
      | some p =>
        obtain ⟨kwText, r1⟩ := p
        rw [hkw] at he
        dsimp only at he
        cases hws : wsTake1 r1 with
        | none => rw [hws] at he; exact Option.noConfusion he
        | some p2 =>
          obtain ⟨ws, r2⟩ := p2
          rw [hws] at he
          dsimp only at he
          split at he
          · exact Option.noConfusion he
          · injection he with hp
            have hm : m.matched = kwText ++ ws ++ r2.takeWhile Char.isDigit := by
              rw [← pair_eq_fst hp]
              exact offsetReplacer_matched _ _ _ _
            rw [hm]
            apply not_containsSub_marker
            intro hin
            rcases List.mem_append.mp hin with hin | hin
            · rcases List.mem_append.mp hin with hin | hin
              · exact kwTryCI_no_brace _ _ _ _ hkw (by decide) hin
              · exact wsTake1_no_brace _ _ _ hws hin
            · exact not_mem_takeWhile _ _ _ (by decide) hin
    · rw [if_neg hbd] at he
      exact Option.noConfusion he

/-- The WHERE pass cannot match text containing the placeholder marker:
keyword, whitespace, column reference and operator are all brace-free. -/
theorem whereStep_no_marker (st : PState) (rev rest : List Char) (m : MatchOut) (st' : PState)
    (he : whereStep st rev rest = some (m, st')) :
    containsSub tokenMarker m.matched = false := by
  cases rest with
  | nil => exact Option.noConfusion he
  | cons c cs =>
    rw [whereStep] at he
    by_cases hbd : boundaryBefore rev c = true
    · rw [if_pos hbd] at he
      cases hkw : kwTryCI "WHERE".data (c :: cs) with
      | none => rw [hkw] at he; exact Option.noConfusion he
      | some p =>
        obtain ⟨whereKw, r1⟩ := p
        rw [hkw] at he
        dsimp only at he
        cases hws1 : wsTake1 r1 with
        | none => rw [hws1] at he; exact Option.noConfusion he
        | some p2 =>
          obtain ⟨ws1, r2⟩ := p2
          rw [hws1] at he
          dsimp only at he
          cases hcol : columnTake r2 with
          | none => rw [hcol] at he; exact Option.noConfusion he
          | some p3 =>
            obtain ⟨column, r3⟩ := p3
            rw [hcol] at he
            dsimp only at he
            cases hws2 : wsTake1 r3 with
            | none => rw [hws2] at he; exact Option.noConfusion he
            | some p4 =>
              obtain ⟨ws2, r4⟩ := p4
              rw [hws2] at he
              dsimp only at he
              cases hop : whereOpTry r4 with
              | none => rw [hop] at he; exact Option.noConfusion he
              | some p5 =>
                obtain ⟨opText, rest'⟩ := p5
                rw [hop] at he
                dsimp only at he
                injection he with hp
                have hm : m.matched = whereKw ++ ws1 ++ column ++ ws2 ++ opText := by
                  rw [← pair_eq_fst hp]
                  exact whereReplacer_matched _ _ _ _ _ _
                rw [hm]
                apply not_containsSub_marker
                intro hin
                rcases List.mem_append.mp hin with hin | hin
                · rcases List.mem_append.mp hin with hin | hin
                  · rcases List.mem_append.mp hin with hin | hin
                    · rcases List.mem_append.mp hin with hin | hin
                      · exact kwTryCI_no_brace _ _ _ _ hkw (by decide) hin
                      · exact wsTake1_no_brace _ _ _ hws1 hin
                    · exact columnTake_no_brace _ _ _ hcol hin
                  · exact wsTake1_no_brace _ _ _ hws2 hin
                · exact whereOpTry_no_brace _ _ _ hop hin
    · rw [if_neg hbd] at he
      exact Option.noConfusion he

/-- The JOIN ON pass cannot match text containing the placeholder marker. -/
theorem joinStep_no_marker (st : PState) (rev rest : List Char) (m : MatchOut) (st' : PState)
    (he : joinStep st rev rest = some (m, st')) :
    containsSub tokenMarker m.matched = false := by
  cases rest with
  | nil => exact Option.noConfusion he
  | cons c cs =>
    rw [joinStep] at he
    by_cases hbd : boundaryBefore rev c = true
    · rw [if_pos hbd] at he
      cases hkw : kwTryCI "ON".data (c :: cs) with
      | none => rw [hkw] at he; exact Option.noConfusion he
      | some p =>
        obtain ⟨onKw, r1⟩ := p
        rw [hkw] at he
        dsimp only at he
        cases hws1 : wsTake1 r1 with
        | none => rw [hws1] at he; exact Option.noConfusion he
        | some p2 =>
          obtain ⟨ws1, r2⟩ := p2
          rw [hws1] at he
          dsimp only at he
          cases hleft : sideTake r2 with
          | none => rw [hleft] at he; exact Option.noConfusion he
          | some p3 =>
            obtain ⟨leftCol, r3⟩ := p3
            rw [hleft] at he
            dsimp only at he
            cases hop : joinOpTry (r3.drop (r3.takeWhile isWS).length) with
            | none => rw [hop] at he; exact Option.noConfusion he
            | some p4 =>
              obtain ⟨opText, r5⟩ := p4
              rw [hop] at he
              dsimp only at he
              cases hright : sideTake (r5.drop (r5.takeWhile isWS).length) with
              | none => rw [hright] at he; exact Option.noConfusion he
              | some p5 =>
                obtain ⟨rightCol, rest'⟩ := p5
                rw [hright] at he
                dsimp only at he
                injection he with hp
                have hm : m.matched =
                    onKw ++ ws1 ++ leftCol ++ r3.takeWhile isWS ++ opText ++
                      r5.takeWhile isWS ++ rightCol := by
                  rw [← pair_eq_fst hp]
                  exact joinReplacer_matched _ _ _ _ _ _ _
                rw [hm]
                apply not_containsSub_marker
                intro hin
                rcases List.mem_append.mp hin with hin | hin
                · rcases List.mem_append.mp hin with hin | hin
                  · rcases List.mem_append.mp hin with hin | hin
                    · rcases List.mem_append.mp hin with hin | hin
                      · rcases List.mem_append.mp hin with hin | hin
                        · rcases List.mem_append.mp hin with hin | hin
                          · exact kwTryCI_no_brace _ _ _ _ hkw (by decide) hin
                          · exact wsTake1_no_brace _ _ _ hws1 hin
                        · exact sideTake_no_brace _ _ _ hleft hin
                      · exact not_mem_takeWhile _ _ _ (by decide) hin
                    · exact joinOpTry_no_brace _ _ _ hop hin
                  · exact not_mem_takeWhile _ _ _ (by decide) hin
                · exact sideTake_no_brace _ _ _ hright hin
    · rw [if_neg hbd] at he
      exact Option.noConfusion he

/-- Taking as many characters as the takeWhile prefix recovers it. -/
theorem take_takeWhile_len (p : Char → Bool) (l : List Char) :
    l.take (l.takeWhile p).length = l.takeWhile p :=
  (List.prefix_iff_eq_take.mp (List.takeWhile_prefix p)).symm

/-- Core of the ORDER BY guard: in any successful match the matched text
splits as prefix ++ expression ++ tail with a brace-free prefix and a
brace- and dot-free tail, so a marker in the matched text lies in the
expression and the replacer's skip guard fires. -/
theorem order_success (st : PState) (exprRaw : List Char) (dir : Option (List Char))
    (M pre tail r4 r5 r7 : List Char) (m : MatchOut) (st' : PState)
    (hp : orderReplacer st exprRaw dir M r7 = (m, st'))
    (hsplit : M = (pre ++ exprRaw) ++ tail)
    (hexpr : exprTake r4 = some (exprRaw, r5))
    (hpre : '\x7b' ∉ pre) (ht1 : '\x7b' ∉ tail) (ht2 : '.' ∉ tail)
    (hmk : containsSub tokenMarker m.matched = true) : m.repl = m.matched := by
  have hm : m.matched = M := by
    rw [← pair_eq_fst hp]
    exact orderReplacer_matched _ _ _ _ _
  rw [hm, hsplit] at hmk
  have hA : containsSub tokenMarker (pre ++ exprRaw) = true :=
    marker_append_left _ _ ht1 ht2 hmk
  have hE : containsSub tokenMarker exprRaw = true := marker_append_right _ _ hpre hA
  have hS : containsSub tokenMarker (stripWS exprRaw) = true := by
    rw [exprTake_strip _ _ _ hexpr]
    exact hE
  rw [hm, ← pair_eq_fst hp]
  exact orderReplacer_guard _ _ _ _ _ hS

/-- The ORDER BY pass skips any match whose text contains the placeholder
marker (the marker can only sit inside the captured expression, and the
replacer's `{{.` guard then returns the match unchanged). -/
theorem orderStep_guard (st : PState) (rev rest : List Char) (m : MatchOut) (st' : PState)
    (he : orderStep st rev rest = some (m, st'))
    (hmk : containsSub tokenMarker m.matched = true) : m.repl = m.matched := by
  cases rest with
  | nil => exact Option.noConfusion he
  | cons c cs =>
    rw [orderStep] at he
    by_cases hbd : boundaryBefore rev c = true
    case neg => rw [if_neg hbd] at he; exact Option.noConfusion he
    rw [if_pos hbd] at he
    cases h1 : kwTryCI "ORDER".data (c :: cs) with
    | none => rw [h1] at he; exact Option.noConfusion he
    | some p1 =>
      obtain ⟨o1, r1⟩ := p1
      rw [h1] at he
      dsimp only at he
      cases h2 : wsTake1 r1 with
      | none => rw [h2] at he; exact Option.noConfusion he
      | some p2 =>
        obtain ⟨w1, r2⟩ := p2
        rw [h2] at he
        dsimp only at he
        cases h3 : kwTryCI "BY".data r2 with
        | none => rw [h3] at he; exact Option.noConfusion he
        | some p3 =>
          obtain ⟨o2, r3⟩ := p3
          rw [h3] at he
          dsimp only at he
          cases h4 : wsTake1 r3 with
          | none => rw [h4] at he; exact Option.noConfusion he
          | some p4 =>
            obtain ⟨w2, r4⟩ := p4
            rw [h4] at he
            dsimp only at he
            cases h5 : exprTake r4 with
            | none => rw [h5] at he; exact Option.noConfusion he
            | some p5 =>
              obtain ⟨exprRaw, r5⟩ := p5
              rw [h5] at he
              dsimp only at he
              have hpre : '\x7b' ∉ o1 ++ w1 ++ o2 ++ w2 := by
                intro hin
                rcases List.mem_append.mp hin with hin | hin
                · rcases List.mem_append.mp hin with hin | hin
                  · rcases List.mem_append.mp hin with hin | hin
                    · exact kwTryCI_no_brace _ _ _ _ h1 (by decide) hin
                    · exact wsTake1_no_brace _ _ _ h2 hin
                  · exact kwTryCI_no_brace _ _ _ _ h3 (by decide) hin
                · exact wsTake1_no_brace _ _ _ h4 hin
              cases h6 : kwTryCI "ASC".data (r5.drop (r5.takeWhile isWS).length) with
              | some p6 =>
                obtain ⟨dText, r7⟩ := p6
                rw [h6] at he
                dsimp only at he
                injection he with hp
                refine order_success st exprRaw (some dText) _
                  (o1 ++ w1 ++ o2 ++ w2) (r5.takeWhile isWS ++ dText) r4 r5 r7 m st'
                  hp (by simp) h5 hpre ?_ ?_ hmk
                · intro hin
                  rcases List.mem_append.mp hin with hin | hin
                  · exact not_mem_takeWhile _ _ _ (by decide) hin
                  · exact kwTryCI_not_mem _ _ _ _ h6 _ (by decide) hin
                · intro hin
                  rcases List.mem_append.mp hin with hin | hin
                  · exact not_mem_takeWhile _ _ _ (by decide) hin
                  · exact kwTryCI_not_mem _ _ _ _ h6 _ (by decide) hin
              | none =>
                rw [h6] at he
                dsimp only at he
                cases h7 : kwTryCI "DESC".data (r5.drop (r5.takeWhile isWS).length) with
                | some p7 =>
                  obtain ⟨dText, r7⟩ := p7
                  rw [h7] at he
                  dsimp only at he
                  injection he with hp
                  refine order_success st exprRaw (some dText) _
                    (o1 ++ w1 ++ o2 ++ w2) (r5.takeWhile isWS ++ dText) r4 r5 r7 m st'
                    hp (by simp) h5 hpre ?_ ?_ hmk
                  · intro hin
                    rcases List.mem_append.mp hin with hin | hin
                    · exact not_mem_takeWhile _ _ _ (by decide) hin
                    · exact kwTryCI_not_mem _ _ _ _ h7 _ (by decide) hin
                  · intro hin
                    rcases List.mem_append.mp hin with hin | hin
                    · exact not_mem_takeWhile _ _ _ (by decide) hin
                    · exact kwTryCI_not_mem _ _ _ _ h7 _ (by decide) hin
                | none =>
                  rw [h7] at he
                  dsimp only at he
                  injection he with hp
                  refine order_success st exprRaw none _
                    (o1 ++ w1 ++ o2 ++ w2) (r5.takeWhile isWS) r4 r5 _ m st'
                    hp (by simp) h5 hpre ?_ ?_ hmk
                  · exact fun hin => not_mem_takeWhile _ _ _ (by decide) hin
                  · exact fun hin => not_mem_takeWhile _ _ _ (by decide) hin

/-- Core of the GROUP BY guard (primary match): the matched text splits as
keyword ++ whitespace run ++ column span, so a marker lies in the span and
the replacer's `{{.` guard fires. -/
theorem group_primary_core (st : PState) (gk r3 : List Char) (len : Nat)
    (remAt : List Char) (m : MatchOut) (st' : PState)
    (hp : groupReplacer st gk ((r3.drop (r3.takeWhile isWS).length).take len)
      (gk ++ r3.take ((r3.takeWhile isWS).length + len)) remAt = (m, st'))
    (hgk : '\x7b' ∉ gk)
    (hmk : containsSub tokenMarker m.matched = true) : m.repl = m.matched := by
  have hm : m.matched = gk ++ r3.take ((r3.takeWhile isWS).length + len) := by
    rw [← pair_eq_fst hp]
    exact groupReplacer_matched _ _ _ _ _
  rw [hm] at hmk
  have h1 : containsSub tokenMarker (r3.take ((r3.takeWhile isWS).length + len)) = true :=
    marker_append_right _ _ hgk hmk
  rw [List.take_add, take_takeWhile_len] at h1
  have h2 : containsSub tokenMarker ((r3.drop (r3.takeWhile isWS).length).take len) = true :=
    marker_append_right _ _ (not_mem_takeWhile _ _ _ (by decide)) h1
  rw [hm, ← pair_eq_fst hp]
  exact groupReplacer_guard _ _ _ _ _ h2

/-- Core of the GROUP BY guard (backtracking fallback): the matched text is
keyword ++ whitespace only, so it cannot contain a marker at all. -/
theorem group_fallback_core (st : PState) (gk r3 : List Char) (rest'' : List Char)
    (m : MatchOut) (st' : PState)
    (hp : groupReplacer st gk ((r3.take ((r3.takeWhile isWS).length - 1)).drop
        ((r3.takeWhile isWS).length - 2))
      (gk ++ r3.take ((r3.takeWhile isWS).length - 1)) rest'' = (m, st'))
    (hgk : '\x7b' ∉ gk)
    (hmk : containsSub tokenMarker m.matched = true) : m.repl = m.matched := by
  exfalso
  have hm : m.matched = gk ++ r3.take ((r3.takeWhile isWS).length - 1) := by
    rw [← pair_eq_fst hp]
    exact groupReplacer_matched _ _ _ _ _
  rw [hm] at hmk
  have h1 : containsSub tokenMarker (r3.take ((r3.takeWhile isWS).length - 1)) = true :=
    marker_append_right _ _ hgk hmk
  have h2 : '\x7b' ∈ r3.take ((r3.takeWhile isWS).length - 1) :=
    containsSub_subset _ _ h1 '\x7b' (by decide)
  have h3 : '\x7b' ∈ r3.take (r3.takeWhile isWS).length :=
    (List.take_prefix_take_left r3 (Nat.sub_le _ _)).subset h2
  rw [take_takeWhile_len] at h3
  exact not_mem_takeWhile isWS r3 '\x7b' (by decide) h3

/-- The GROUP BY pass skips any match whose text contains the placeholder
marker: the marker can only sit in the column span, where the `{{.` guard
returns the match unchanged (the backtracking fallback consumes whitespace
only and can contain no marker at all). -/
theorem groupStep_guard (st : PState) (rev rest : List Char) (m : MatchOut) (st' : PState)
    (he : groupStep st rev rest = some (m, st'))
    (hmk : containsSub tokenMarker m.matched = true) : m.repl = m.matched := by
  cases rest with
  | nil => exact Option.noConfusion he
  | cons c cs =>
    rw [groupStep] at he
    by_cases hbd : boundaryBefore rev c = true
    case neg => rw [if_neg hbd] at he; exact Option.noConfusion he
    rw [if_pos hbd] at he
    cases h1 : kwTryCI "GROUP".data (c :: cs) with
    | none => rw [h1] at he; exact Option.noConfusion he
    | some p1 =>
      obtain ⟨g1, r1⟩ := p1
      rw [h1] at he
      dsimp only at he
      cases h2 : wsTake1 r1 with
      | none => rw [h2] at he; exact Option.noConfusion he
      | some p2 =>
        obtain ⟨wsA, r2⟩ := p2
        rw [h2] at he
        dsimp only at he
        cases h3 : kwTryCI "BY".data r2 with
        | none => rw [h3] at he; exact Option.noConfusion he
        | some p3 =>
          obtain ⟨g2, r3⟩ := p3
          rw [h3] at he
          dsimp only at he
          have hgk : '\x7b' ∉ g1 ++ wsA ++ g2 := by
            intro hin
            rcases List.mem_append.mp hin with hin | hin
            · rcases List.mem_append.mp hin with hin | hin
              · exact kwTryCI_no_brace _ _ _ _ h1 (by decide) hin
              · exact wsTake1_no_brace _ _ _ h2 hin
            · exact kwTryCI_no_brace _ _ _ _ h3 (by decide) hin
          split at he
          · exact Option.noConfusion he
          · cases hd : r3.drop (r3.takeWhile isWS).length with
            | cons c0 rem0 =>
              rw [hd] at he
              dsimp only at he
              by_cases hc0 : (c0 == ';') = true
              · rw [if_pos hc0] at he
                dsimp only at he
                split at he
                · injection he with hp
                  exact group_fallback_core st _ r3 _ m st' hp hgk hmk
                · exact Option.noConfusion he
              · rw [if_neg hc0] at he
                cases hgs : groupScanContent 1 rem0 with
                | some pgs =>
                  obtain ⟨contentLen, remAt⟩ := pgs
                  rw [hgs] at he
                  dsimp only at he
                  injection he with hp
                  rw [← hd] at hp
                  exact group_primary_core st _ r3 contentLen remAt m st' hp hgk hmk
                | none =>
                  rw [hgs] at he
                  dsimp only at he
                  split at he
                  · injection he with hp
                    exact group_fallback_core st _ r3 _ m st' hp hgk hmk
                  · exact Option.noConfusion he
            | nil =>
              rw [hd] at he
              dsimp only at he
              split at he
              · injection he with hp
                exact group_fallback_core st _ r3 _ m st' hp hgk hmk
              · exact Option.noConfusion he

/-- The SELECT-columns pass emits any column containing the placeholder
marker verbatim (such a column contains a dot, so the table.column skip
applies). -/
theorem processSelCols_marker (st : PState) (i : Nat) (cols : List (List Char)) :
    List.Forall₂ (fun c o => containsSub tokenMarker c = true → o = c) cols
      (processSelCols st i cols).1 := by
  induction cols generalizing st i with
  | nil => exact List.Forall₂.nil
  | cons col cols ih =>
    rw [processSelCols]
    dsimp only
    by_cases h1 : selColKeep col = true
    · rw [if_pos h1]
      exact List.Forall₂.cons (fun _ => rfl) (ih st (i + 1))
    · rw [if_neg h1]
      by_cases h2 : isFullIdent col = true
      · rw [if_pos h2]
        refine List.Forall₂.cons (fun hmk => absurd ?_ h1) (ih _ (i + 1))
        have hdot : '.' ∈ col := containsSub_subset _ _ hmk '.' (by decide)
        simp [selColKeep, hdot]
      · rw [if_neg h2]
        exact List.Forall₂.cons (fun _ => rfl) (ih st (i + 1))

/-- Claim C4: when parameterize runs on text already containing `{{.x}}`
placeholders, the special-clause (LIMIT/OFFSET/ORDER BY), SELECT-column,
WHERE-column, JOIN-ON and GROUP BY passes cannot wrap an existing token in
a second-order placeholder: the LIMIT, OFFSET, WHERE and JOIN patterns
cannot match any text containing the marker substring `{{.` at all, the
ORDER BY and GROUP BY passes return any marker-containing match unchanged,
and the SELECT pass emits marker-containing columns verbatim. -/
theorem claim4_guards :
    (∀ st rev rest m st', limitStep st rev rest = some (m, st') →
      containsSub tokenMarker m.matched = false) ∧
    (∀ st rev rest m st', offsetStep st rev rest = some (m, st') →
      containsSub tokenMarker m.matched = false) ∧
    (∀ st rev rest m st', whereStep st rev rest = some (m, st') →
      containsSub tokenMarker m.matched = false) ∧
    (∀ st rev rest m st', joinStep st rev rest = some (m, st') →
      containsSub tokenMarker m.matched = false) ∧
    (∀ st rev rest m st', orderStep st rev rest = some (m, st') →
      containsSub tokenMarker m.matched = true → m.repl = m.matched) ∧
    (∀ st rev rest m st', groupStep st rev rest = some (m, st') →
      containsSub tokenMarker m.matched = true → m.repl = m.matched) ∧
    (∀ st i cols, List.Forall₂ (fun c o => containsSub tokenMarker c = true → o = c)
      cols (processSelCols st i cols).1) :=
  ⟨limitStep_no_marker, offsetStep_no_marker, whereStep_no_marker, joinStep_no_marker,
   orderStep_guard, groupStep_guard, processSelCols_marker⟩

/-! ### C10 support: the LEFT/RIGHT JOIN branches of the smart namer are dead -/

/-- A character whose (ASCII) uppercasing is a word character is itself a
word character. -/
theorem word_of_toUpper (c u : Char) (h : c.toUpper = u)
    (hu : isWordChar u = true) : isWordChar c = true := by
  rw [Char.toUpper] at h
  split at h
  · rename_i hcond
    have hl : c.isLower = true := by
      simp only [Char.isLower, Bool.and_eq_true, decide_eq_true_iff]
      exact ⟨hcond.1, hcond.2⟩
    simp [isWordChar, Char.isAlpha, hl]
  · rw [h]
    exact hu

/-- Whitespace characters are not word characters. -/
theorem isWS_not_word (c : Char) (h : isWS c = true) : isWordChar c = false := by
  simp only [isWS, Bool.or_eq_true, beq_iff_eq] at h
  rcases h with ((((h | h) | h) | h) | h) | h <;> subst h <;> decide

/-- A successful case-insensitive keyword match splits the input. -/
theorem kwTryCI_split : ∀ (kw s m r : List Char), kwTryCI kw s = some (m, r) →
    s = m ++ r := by
  intro kw
  induction kw with
  | nil =>
    intro s m r he
    rw [kwTryCI] at he
    injection he with h
    injection h with h1 h2
    rw [← h1, ← h2]
    rfl
  | cons k ks ih =>
    intro s m r he
    cases s with
    | nil => exact Option.noConfusion he
    | cons c cs =>
      rw [kwTryCI] at he
      split at he
      · cases hrec : kwTryCI ks cs with
        | none => rw [hrec] at he; exact Option.noConfusion he
        | some p =>
          obtain ⟨m', r'⟩ := p
          rw [hrec] at he
          dsimp only at he
          injection he with h
          injection h with h1 h2
          rw [← h1, ← h2, List.cons_append, ← ih cs m' r' hrec]
      · exact Option.noConfusion he

/-- A keyword match for a nonempty keyword starts at a character whose
uppercasing is the keyword's first letter. -/
theorem kwTryCI_cons_head (k : Char) (ks s m r : List Char)
    (he : kwTryCI (k :: ks) s = some (m, r)) :
    ∃ c cs, s = c :: cs ∧ c.toUpper = k := by
  cases s with
  | nil => exact Option.noConfusion he
  | cons c cs =>
    rw [kwTryCI] at he
    split at he
    · rename_i hcond
      exact ⟨c, cs, rfl, (beq_iff_eq.mp hcond).symm⟩
    · exact Option.noConfusion he

/-- A successful `\s+` match splits the input into a nonempty whitespace run
and the rest. -/
theorem wsTake1_split (s ws r : List Char) (he : wsTake1 s = some (ws, r)) :
    s = ws ++ r ∧ ws ≠ [] := by
  rw [wsTake1] at he
  split at he
  · exact Option.noConfusion he
  · rename_i hne
    injection he with h
    injection h with h1 h2
    constructor
    · rw [← h1, ← h2]
      conv_lhs => rw [← List.take_append_drop (s.takeWhile isWS).length s]
      rw [take_takeWhile_len]
    · rw [← h1]
      simpa [List.isEmpty_iff] using hne

/-- If the at-position predicate holds somewhere in the input, the scan from
the start of the input finds a position. -/
theorem existsScan_of_split (p : List Char → List Char → Bool) :
    ∀ (a rev b : List Char), b ≠ [] → p (a.reverse ++ rev) b = true →
      existsScan p rev (a ++ b) = true := by
  intro a
  induction a with
  | nil =>
    intro rev b hb hp
    cases b with
    | nil => exact absurd rfl hb
    | cons c cs =>
      show (p rev (c :: cs) || existsScan p (c :: rev) cs) = true
      rw [show ([] : List Char).reverse ++ rev = rev from rfl] at hp
      rw [hp, Bool.true_or]
  | cons x a' ih =>
    intro rev b hb hp
    rw [List.reverse_cons, List.append_assoc] at hp
    have hstep := ih (x :: rev) b hb hp
    show (p rev (x :: (a' ++ b)) || existsScan p (x :: rev) (a' ++ b)) = true
    rw [hstep, Bool.or_true]

/-- The scan is monotone in the at-position predicate. -/
theorem existsScan_mono (p q : List Char → List Char → Bool)
    (h : ∀ rv rs, p rv rs = true → q rv rs = true) :
    ∀ (s rev : List Char), existsScan p rev s = true → existsScan q rev s = true := by
  intro s
  induction s with
  | nil => intro rev hs; exact Bool.noConfusion hs
  | cons c cs ih =>
    intro rev hs
    rw [show existsScan p rev (c :: cs) =
        (p rev (c :: cs) || existsScan p (c :: rev) cs) from rfl] at hs
    show (q rev (c :: cs) || existsScan q (c :: rev) cs) = true
    rcases Bool.or_eq_true _ _ |>.mp hs with h1 | h2
    · rw [h rev (c :: cs) h1, Bool.true_or]
    · rw [ih (c :: rev) h2, Bool.or_true]

/-- Lift a pointwise implication into a scan implication when the target is
itself found by a scan from the same position. -/
theorem existsScan_pos_lift (p q : List Char → List Char → Bool)
    (h : ∀ rv rs, p rv rs = true → existsScan q rv rs = true) :
    ∀ (s rev : List Char), existsScan p rev s = true → existsScan q rev s = true := by
  intro s
  induction s with
  | nil => intro rev hs; exact Bool.noConfusion hs
  | cons c cs ih =>
    intro rev hs
    rw [show existsScan p rev (c :: cs) =
        (p rev (c :: cs) || existsScan p (c :: rev) cs) from rfl] at hs
    rcases Bool.or_eq_true _ _ |>.mp hs with h1 | h2
    · exact h rev (c :: cs) h1
    · show (q rev (c :: cs) || existsScan q (c :: rev) cs) = true
      rw [ih (c :: rev) h2, Bool.or_true]

/-- Whenever `\bK1\s+JOIN\b` matches at a position, `\bJOIN\b` matches at the
position of its JOIN keyword, further right in the input. -/
theorem kw2join_pos (k1 : String) (rev rest : List Char)
    (h : kw2WordAt k1 "JOIN" rev rest = true) :
    existsScan (kwWordAt "JOIN") rev rest = true := by
  cases rest with
  | nil => exact Bool.noConfusion h
  | cons c cs =>
    rw [kw2WordAt] at h
    dsimp only at h
    rw [Bool.and_eq_true] at h
    obtain ⟨hbd, hm⟩ := h
    cases h1 : kwTryCI k1.data (c :: cs) with
    | none => rw [h1] at hm; exact Bool.noConfusion hm
    | some p1 =>
      obtain ⟨m1, r1⟩ := p1
      rw [h1] at hm
      dsimp only at hm
      cases h2 : wsTake1 r1 with
      | none => rw [h2] at hm; exact Bool.noConfusion hm
      | some p2 =>
        obtain ⟨ws, r2⟩ := p2
        rw [h2] at hm
        dsimp only at hm
        cases h3 : kwTryCI "JOIN".data r2 with
        | none => rw [h3] at hm; exact Bool.noConfusion hm
        | some p3 =>
          obtain ⟨m2, r3⟩ := p3
          rw [h3] at hm
          dsimp only at hm
          have hs1 : c :: cs = m1 ++ r1 := kwTryCI_split _ _ _ _ h1
          obtain ⟨hs2, hwsne⟩ := wsTake1_split r1 ws r2 h2
          obtain ⟨j, js, hr2, hjup⟩ := kwTryCI_cons_head 'J' "OIN".data r2 m2 r3 h3
          have hjw : isWordChar j = true := word_of_toUpper j 'J' hjup (by decide)
          cases hwr : ws.reverse with
          | nil => exact absurd (List.reverse_eq_nil_iff.mp hwr) hwsne
          | cons w t =>
            have hwmem : w ∈ ws := by
              rw [← List.mem_reverse, hwr]
              exact List.mem_cons_self w t
            have hww : isWordChar w = false :=
              isWS_not_word w (wsTake1_chars r1 ws r2 h2 w hwmem)
            have hrev : (m1 ++ ws).reverse ++ rev = w :: (t ++ (m1.reverse ++ rev)) := by
              rw [List.reverse_append, hwr]
              simp [List.append_assoc]
            have hkw : kwWordAt "JOIN" ((m1 ++ ws).reverse ++ rev) r2 = true := by
              rw [hr2, kwWordAt]
              dsimp only
              rw [← hr2, h3]
              dsimp only
              rw [hrev]
              show (boundaryBefore (w :: (t ++ (m1.reverse ++ rev))) j &&
                boundaryAfterWord r3) = true
              rw [show boundaryBefore (w :: (t ++ (m1.reverse ++ rev))) j =
                  (isWordChar w != isWordChar j) from rfl]
              rw [hww, hjw, hm]
              rfl
            have hfin : existsScan (kwWordAt "JOIN") rev ((m1 ++ ws) ++ r2) = true :=
              existsScan_of_split _ (m1 ++ ws) rev r2 (by rw [hr2]; simp) hkw
            rw [List.append_assoc, ← hs2, ← hs1] at hfin
            exact hfin

/-- If `\bK1\s+JOIN\b` is found anywhere, the plain-JOIN scan also succeeds. -/
theorem kw2join_scan (k1 : String) (s rev : List Char)
    (h : existsScan (kw2WordAt k1 "JOIN") rev s = true) :
    existsScan joinAt rev s = true := by
  have h1 := existsScan_pos_lift (kw2WordAt k1 "JOIN") (kwWordAt "JOIN")
    (fun rv rs hp => kw2join_pos k1 rv rs hp) s rev h
  exact existsScan_mono (kwWordAt "JOIN") joinAt
    (fun rv rs hp => by rw [joinAt, hp, Bool.or_true]) s rev h1

/-- The structural feature list never contains `left_joined` or
`right_joined`: whenever the LEFT/RIGHT JOIN pattern is found, the
plain-JOIN scan has already succeeded, so the elif branches are dead. -/
theorem smartFeatures_mem (sql : String) (x : String) (hx : x ∈ smartFeatures sql) :
    x ∈ ["count", "sum", "aggregate", "grouped", "joined", "filtered",
         "sorted", "limited", "offset", "having", "distinct"] := by
  unfold smartFeatures at hx
  dsimp only at hx
  simp only [List.mem_append] at hx
  rcases hx with ((((((((h | h) | h) | h) | h) | h) | h) | h) | h)
  · split at h
    · simp only [List.mem_singleton] at h; rw [h]; decide
    · split at h
      · simp only [List.mem_singleton] at h; rw [h]; decide
      · split at h
        · simp only [List.mem_singleton] at h; rw [h]; decide
        · exact absurd h (List.not_mem_nil x)
  · split at h
    · simp only [List.mem_singleton] at h; rw [h]; decide
    · exact absurd h (List.not_mem_nil x)
  · split at h
    · simp only [List.mem_singleton] at h; rw [h]; decide
    · rename_i hnj
      split at h
      · rename_i hlj
        exact absurd (kw2join_scan "LEFT" sql.data [] hlj) hnj
      · split at h
        · rename_i hrj
          exact absurd (kw2join_scan "RIGHT" sql.data [] hrj) hnj
        · exact absurd h (List.not_mem_nil x)
  · split at h
    · simp only [List.mem_singleton] at h; rw [h]; decide
    · exact absurd h (List.not_mem_nil x)
  · split at h
    · simp only [List.mem_singleton] at h; rw [h]; decide
    · exact absurd h (List.not_mem_nil x)
  · split at h
    · simp only [List.mem_singleton] at h; rw [h]; decide
    · exact absurd h (List.not_mem_nil x)
  · split at h
    · simp only [List.mem_singleton] at h; rw [h]; decide
    · exact absurd h (List.not_mem_nil x)
  · split at h
    · simp only [List.mem_singleton] at h; rw [h]; decide
    · exact absurd h (List.not_mem_nil x)
  · split at h
    · simp only [List.mem_singleton] at h; rw [h]; decide
    · exact absurd h (List.not_mem_nil x)

/-- The operation name is one of eight fixed strings. -/
theorem smartOpName_mem (sql : String) :
    smartOpName sql ∈ ["select", "insert", "update", "delete", "create",
      "alter", "drop", "query"] := by
  rw [smartOpName]
  dsimp only
  split_ifs <;> decide

/-- A run-squash leaves a fully kept list unchanged, whatever the flag. -/
theorem squash_id (keep : Char → Bool) : ∀ (l : List Char), l.all keep = true →
    ∀ b, squashRunsAux keep b l = l := by
  intro l
  induction l with
  | nil => intro _ b; rfl
  | cons c cs ih =>
    intro h b
    rw [List.all_cons, Bool.and_eq_true] at h
    rw [squashRunsAux, if_pos h.1, ih h.2 false]

/-- A run-squash walks through a fully kept nonempty prefix and restarts with
a cleared flag. -/
theorem squash_append_kept (keep : Char → Bool) :
    ∀ (p : List Char), p ≠ [] → p.all keep = true → ∀ (r : List Char) (b : Bool),
      squashRunsAux keep b (p ++ r) = p ++ squashRunsAux keep false r := by
  intro p
  induction p with
  | nil => intro h; exact absurd rfl h
  | cons c cs ih =>
    intro _ h r b
    rw [List.all_cons, Bool.and_eq_true] at h
    rw [List.cons_append, squashRunsAux, if_pos h.1]
    cases cs with
    | nil => rfl
    | cons d ds =>
      rw [ih (by simp) h.2 r false]
      rfl

/-- The flag is irrelevant when the head character is kept. -/
theorem squash_flag (keep : Char → Bool) (b b' : Bool) (c : Char) (cs : List Char)
    (hc : keep c = true) :
    squashRunsAux keep b (c :: cs) = squashRunsAux keep b' (c :: cs) := by
  rw [squashRunsAux, squashRunsAux, if_pos hc, if_pos hc]

/-- Collapsing underscore runs leaves an underscore-joined list of nonempty
underscore-free parts unchanged. -/
theorem us_inter : ∀ (ps : List (List Char)),
    (∀ p ∈ ps, p ≠ [] ∧ p.all (fun c => !(c == '_')) = true) →
    squashRunsAux (fun c => !(c == '_')) false (intercalateC ['_'] ps) =
      intercalateC ['_'] ps := by
  intro ps
  induction ps with
  | nil => intro _; rfl
  | cons p qs ih =>
    intro h
    obtain ⟨hpne, hpall⟩ := h p (List.mem_cons_self p qs)
    cases qs with
    | nil => exact squash_id _ p hpall false
    | cons q ts =>
      rw [show intercalateC ['_'] (p :: q :: ts) =
          p ++ '_' :: intercalateC ['_'] (q :: ts) from by
        rw [show intercalateC ['_'] (p :: q :: ts) =
            p ++ ['_'] ++ intercalateC ['_'] (q :: ts) from rfl, List.append_assoc]
        rfl]
      rw [squash_append_kept _ p hpne hpall]
      congr 1
      rw [show squashRunsAux (fun c => !(c == '_')) false
          ('_' :: intercalateC ['_'] (q :: ts)) =
          '_' :: squashRunsAux (fun c => !(c == '_')) true
            (intercalateC ['_'] (q :: ts)) from rfl]
      obtain ⟨hqne, hqall⟩ := h q (by simp)
      obtain ⟨d, ds, hq0⟩ : ∃ d ds, q = d :: ds := by
        cases q with
        | nil => exact absurd rfl hqne
        | cons d ds => exact ⟨d, ds, rfl⟩
      have hd : (!(d == '_')) = true := by
        rw [hq0, List.all_cons, Bool.and_eq_true] at hqall
        exact hqall.1
      have hrest : ∃ X, intercalateC ['_'] (q :: ts) = d :: X := by
        cases ts with
        | nil => exact ⟨ds, by rw [hq0]; rfl⟩
        | cons t ts' =>
          exact ⟨(ds ++ ['_']) ++ intercalateC ['_'] (t :: ts'), by rw [hq0]; rfl⟩
      obtain ⟨X, hX⟩ := hrest
      rw [hX, squash_flag _ true false d X hd, ← hX,
        ih (fun r hr => h r (List.mem_cons_of_mem p hr))]

/-- Lowercasing fixes every character above `Z`. -/
theorem lowerChars_id (l : List Char) (h : ∀ c ∈ l, 90 < c.toNat) :
    lowerChars l = l := by
  induction l with
  | nil => rfl
  | cons c cs ih =>
    rw [lowerChars, List.map_cons]
    have hc : c.toLower = c := by
      rw [Char.toLower]
      split
      · rename_i hcond
        exact absurd hcond.2 (by have := h c (by simp); omega)
      · rfl
    rw [hc]
    have htail : lowerChars cs = cs := ih (fun x hx => h x (List.mem_cons_of_mem c hx))
    rw [lowerChars] at htail
    rw [htail]

/-- Every character of an underscore-join comes from a part or is an
underscore. -/
theorem inter_chars : ∀ (ps : List (List Char)) (c : Char),
    c ∈ intercalateC ['_'] ps → (∃ p, p ∈ ps ∧ c ∈ p) ∨ c = '_' := by
  intro ps
  induction ps with
  | nil => intro c hc; exact absurd hc (List.not_mem_nil c)
  | cons p qs ih =>
    intro c hc
    cases qs with
    | nil => exact Or.inl ⟨p, by simp, hc⟩
    | cons q ts =>
      rw [show intercalateC ['_'] (p :: q :: ts) =
          p ++ '_' :: intercalateC ['_'] (q :: ts) from by
        rw [show intercalateC ['_'] (p :: q :: ts) =
            p ++ ['_'] ++ intercalateC ['_'] (q :: ts) from rfl, List.append_assoc]
        rfl] at hc
      rcases List.mem_append.mp hc with h | h
      · exact Or.inl ⟨p, by simp, h⟩
      · rcases List.mem_cons.mp h with h | h
        · exact Or.inr h
        · rcases ih c h with ⟨r, hr, hcr⟩ | h
          · exact Or.inl ⟨r, by simp [hr], hcr⟩
          · exact Or.inr h

/-- An underscore-join headed by a nonempty part starts with that part's
first character. -/
theorem inter_cons_head (d : Char) (ds : List Char) (qs : List (List Char)) :
    ∃ X, intercalateC ['_'] ((d :: ds) :: qs) = d :: X := by
  cases qs with
  | nil => exact ⟨ds, rfl⟩
  | cons q ts => exact ⟨(ds ++ ['_']) ++ intercalateC ['_'] (q :: ts), rfl⟩

/-- The last character of an underscore-join of nonempty parts comes from one
of the parts. -/
theorem inter_last : ∀ (ps : List (List Char)), ps ≠ [] → (∀ p ∈ ps, p ≠ []) →
    ∃ c X, (intercalateC ['_'] ps).reverse = c :: X ∧ ∃ p, p ∈ ps ∧ c ∈ p := by
  intro ps
  induction ps with
  | nil => intro h _; exact absurd rfl h
  | cons p qs ih =>
    intro _ hne
    cases qs with
    | nil =>
      cases hr : p.reverse with
      | nil => exact absurd (List.reverse_eq_nil_iff.mp hr) (hne p (by simp))
      | cons c X =>
        refine ⟨c, X, hr, p, by simp, ?_⟩
        rw [← List.mem_reverse, hr]
        exact List.mem_cons_self c X
    | cons q ts =>
      obtain ⟨c, X, hX, r, hr, hcr⟩ :=
        ih (by simp) (fun x hx => hne x (List.mem_cons_of_mem p hx))
      refine ⟨c, X ++ (p ++ ['_']).reverse, ?_, r, List.mem_cons_of_mem p hr, hcr⟩
      rw [show intercalateC ['_'] (p :: q :: ts) =
          (p ++ ['_']) ++ intercalateC ['_'] (q :: ts) from rfl]
      rw [List.reverse_append, hX]
      rfl

/-- Stripping a character from both ends fixes a list that neither starts nor
ends with it. -/
theorem stripChar_id (ch : Char) (l : List Char)
    (hh : ∃ c X, l = c :: X ∧ (c == ch) = false)
    (hl : ∃ c X, l.reverse = c :: X ∧ (c == ch) = false) :
    stripChar ch l = l := by
  obtain ⟨c, X, hcl, hc⟩ := hh
  obtain ⟨d, Y, hdl, hd⟩ := hl
  rw [stripChar]
  rw [hcl, List.dropWhile_cons, if_neg (by simp [hc]), ← hcl]
  rw [hdl, List.dropWhile_cons, if_neg (by simp [hd]), ← hdl, List.reverse_reverse]

/-- Length bound for an underscore-join. -/
theorem inter_len_le : ∀ (ps : List (List Char)) (k : Nat),
    (∀ p ∈ ps, p.length ≤ k) →
    (intercalateC ['_'] ps).length ≤ ps.length * (k + 1) := by
  intro ps
  induction ps with
  | nil =>
    intro k _
    show (0 : Nat) ≤ 0 * (k + 1)
    omega
  | cons p qs ih =>
    intro k h
    have hp := h p (by simp)
    cases qs with
    | nil =>
      show p.length ≤ 1 * (k + 1)
      omega
    | cons q ts =>
      rw [show intercalateC ['_'] (p :: q :: ts) =
          (p ++ ['_']) ++ intercalateC ['_'] (q :: ts) from rfl]
      have htl := ih k (fun x hx => h x (List.mem_cons_of_mem p hx))
      rw [List.length_append, List.length_append,
        show (['_'] : List Char).length = 1 from rfl]
      rw [show ((p :: q :: ts).length : Nat) = (q :: ts).length + 1 from rfl,
        Nat.succ_mul]
      omega

/-- `hasPrefixC` is the prefix relation. -/
theorem hasPrefixC_iff : ∀ (n s : List Char), hasPrefixC n s = true ↔ n <+: s := by
  intro n
  induction n with
  | nil => intro s; simp [hasPrefixC]
  | cons a as ih =>
    intro s
    cases s with
    | nil => simp [hasPrefixC, List.prefix_nil]
    | cons b bs =>
      rw [show hasPrefixC (a :: as) (b :: bs) = ((a == b) && hasPrefixC as bs) from rfl,
        Bool.and_eq_true, beq_iff_eq, ih bs, List.cons_prefix_cons]

/-- `containsSub` is the infix (substring) relation. -/
theorem containsSub_infix_iff (n : List Char) : ∀ (l : List Char),
    containsSub n l = true ↔ n <:+: l := by
  intro l
  induction l with
  | nil => simp [containsSub, List.isEmpty_iff, List.infix_nil]
  | cons c t ih =>
    rw [show containsSub n (c :: t) = (hasPrefixC n (c :: t) || containsSub n t) from rfl,
      Bool.or_eq_true, hasPrefixC_iff, ih, List.infix_cons_iff]

/-- A prefix of an append is a prefix of the left part or extends it. -/
theorem prefix_append_split (n a b : List Char) (h : n <+: a ++ b) :
    n <+: a ∨ ∃ n2, n = a ++ n2 ∧ n2 <+: b := by
  obtain ⟨v, hv⟩ := h
  rcases List.append_eq_append_iff.mp hv with ⟨a', ha1, _⟩ | ⟨c', hc1, hc2⟩
  · exact Or.inl ⟨a', ha1.symm⟩
  · exact Or.inr ⟨c', hc1, ⟨v, hc2.symm⟩⟩

/-- An infix of an append lies in a part or spans the border as a nonempty
suffix of the left part followed by a prefix of the right part. -/
theorem infix_append_split (n a b : List Char) (h : n <:+: a ++ b) :
    n <:+: a ∨ n <:+: b ∨
      ∃ n1 n2, n = n1 ++ n2 ∧ n1 ≠ [] ∧ n1 <:+ a ∧ n2 <+: b := by
  obtain ⟨u, v, huv⟩ := h
  rcases List.append_eq_append_iff.mp huv with ⟨a', ha1, _⟩ | ⟨c', hc1, hc2⟩
  · exact Or.inl ⟨u, a', ha1.symm⟩
  · rcases List.append_eq_append_iff.mp hc1 with ⟨w, hw1, hw2⟩ | ⟨w, _, hw2⟩
    · rcases eq_or_ne w [] with rfl | hne
      · refine Or.inr (Or.inl ?_)
        rw [hw2, List.nil_append]
        exact List.IsPrefix.isInfix ⟨v, hc2.symm⟩
      · exact Or.inr (Or.inr ⟨w, c', hw2, hne, ⟨u, hw1.symm⟩, ⟨v, hc2.symm⟩⟩)
    · refine Or.inr (Or.inl ⟨w, v, ?_⟩)
      rw [hc2, hw2]

/-- Core impossibility for claim C10: a needle of the shape `A` + `_` + `B`,
where `A` is nonempty, underscore-free and a suffix of no allowed part,
cannot be a substring of an underscore-join of allowed parts (parts are
underscore-free and none ends in `A`, so the needle's underscore can align
with no position). -/
theorem inter_no_needle (A B : List Char) (hAne : A ≠ [])
    (hAfree : ∀ c ∈ A, (c == '_') = false)
    (hAsuf : ∀ p ∈ allowedNameParts, ¬(A <:+ p)) :
    ∀ (ps : List (List Char)), (∀ p ∈ ps, p ∈ allowedNameParts) →
      ¬((A ++ '_' :: B) <:+: intercalateC ['_'] ps) := by
  have hpartfree : ∀ p ∈ allowedNameParts, ∀ c ∈ p, (c == '_') = false := by decide
  intro ps
  induction ps with
  | nil =>
    intro _ h
    rw [show intercalateC ['_'] ([] : List (List Char)) = ([] : List Char) from rfl,
      List.infix_nil] at h
    exact absurd h (by simp)
  | cons p qs ih =>
    intro hps hinf
    have hpok := hps p (by simp)
    cases qs with
    | nil =>
      have hsub := hinf.subset (show '_' ∈ A ++ '_' :: B by simp)
      have := hpartfree p hpok '_' hsub
      simp at this
    | cons q ts =>
      rw [show intercalateC ['_'] (p :: q :: ts) =
          p ++ '_' :: intercalateC ['_'] (q :: ts) from by
        rw [show intercalateC ['_'] (p :: q :: ts) =
            p ++ ['_'] ++ intercalateC ['_'] (q :: ts) from rfl, List.append_assoc]
        rfl] at hinf
      rcases infix_append_split _ p _ hinf with
        h | h | ⟨n1, n2, hsplit, hn1ne, hn1suf, hn2pre⟩
      · have hsub := h.subset (show '_' ∈ A ++ '_' :: B by simp)
        have := hpartfree p hpok '_' hsub
        simp at this
      · rcases List.infix_cons_iff.mp h with h | h
        · obtain ⟨v, hv⟩ := h
          obtain ⟨a0, as, hA⟩ : ∃ a0 as, A = a0 :: as := by
            cases A with
            | nil => exact absurd rfl hAne
            | cons a0 as => exact ⟨a0, as, rfl⟩
          rw [hA] at hv
          rw [show ((a0 :: as) ++ '_' :: B) ++ v =
              a0 :: ((as ++ '_' :: B) ++ v) from rfl] at hv
          injection hv with h1 _
          have := hAfree a0 (by rw [hA]; simp)
          rw [h1] at this
          simp at this
        · exact ih (fun r hr => hps r (List.mem_cons_of_mem p hr)) h
      · have hn1free : ∀ c ∈ n1, (c == '_') = false :=
          fun c hc => hpartfree p hpok c (hn1suf.subset hc)
        have hn1take : (A ++ '_' :: B).take n1.length = n1 := by
          rw [hsplit]
          exact List.take_left n1 n2
        rcases Nat.lt_trichotomy n1.length A.length with hk | hk | hk
        · have hn2drop : (A ++ '_' :: B).drop n1.length = n2 := by
            rw [hsplit]
            exact List.drop_left n1 n2
          have hdropA : (A ++ '_' :: B).drop n1.length =
              A.drop n1.length ++ '_' :: B :=
            List.drop_append_of_le_length (Nat.le_of_lt hk)
          obtain ⟨c, X, hd⟩ : ∃ c X, A.drop n1.length = c :: X := by
            cases hd0 : A.drop n1.length with
            | nil =>
              have := List.drop_eq_nil_iff.mp hd0
              omega
            | cons c X => exact ⟨c, X, rfl⟩
          have hcA : c ∈ A := List.drop_subset n1.length A (by rw [hd]; simp)
          obtain ⟨v, hv⟩ := hn2pre
          rw [← hn2drop, hdropA, hd] at hv
          rw [show ((c :: X) ++ '_' :: B) ++ v =
              c :: ((X ++ '_' :: B) ++ v) from rfl] at hv
          injection hv with h1 _
          have := hAfree c hcA
          rw [h1] at this
          simp at this
        · have hn1A : n1 = A := by
            rw [← hn1take, hk]
            exact List.take_left A ('_' :: B)
          exact hAsuf p hpok (hn1A ▸ hn1suf)
        · have htk : (A ++ '_' :: B).take (A.length + 1) = A ++ ['_'] := by
            rw [List.take_append_eq_append_take,
              List.take_of_length_le (by omega),
              show A.length + 1 - A.length = 1 from by omega]
            rfl
          have hpref : (A ++ '_' :: B).take (A.length + 1) <+:
              (A ++ '_' :: B).take n1.length :=
            List.take_prefix_take_left _ (by omega)
          have hmem : '_' ∈ n1 := by
            rw [← hn1take]
            exact hpref.subset (by rw [htk]; simp)
          have := hn1free '_' hmem
          simp at this

/-- Lowercase letters sit above `Z` in the character order. -/
theorem letter_gt90 (c : Char) (h : ('a' ≤ c && c ≤ 'z') = true) : 90 < c.toNat := by
  rw [Bool.and_eq_true, decide_eq_true_iff, decide_eq_true_iff] at h
  have h97 : (97 : Nat) ≤ c.toNat := h.1
  omega

/-- Lowercase letters are not the underscore. -/
theorem letter_ne_und (c : Char) (h : ('a' ≤ c && c ≤ 'z') = true) :
    (c == '_') = false := by
  cases hbe : (c == '_') with
  | false => rfl
  | true =>
    have := beq_iff_eq.mp hbe
    subst this
    exact absurd h (by decide)

/-- Lowercase letters survive the `[^a-z0-9_]` squash. -/
theorem letter_keep (c : Char) (h : ('a' ≤ c && c ≤ 'z') = true) :
    keepNameChar c = true := by
  rw [keepNameChar, isLowerAlnum, h]
  rfl

/-- The whole sanitising chain of generate_smart_tool_name is the identity
on an underscore-join of at most four nonempty all-lowercase-letter parts of
length at most nine: the two squash equations, the vacuous length cut and
nonemptiness. -/
theorem name_chain_id (ps : List (List Char)) (hne : ps ≠ [])
    (hgoodps : ∀ p ∈ ps, p ≠ [] ∧ ∀ c ∈ p, ('a' ≤ c && c ≤ 'z') = true)
    (hlen4 : ps.length ≤ 4) (hplen9 : ∀ p ∈ ps, p.length ≤ 9) :
    squashRunsAux keepNameChar false (lowerChars (intercalateC ['_'] ps)) =
        intercalateC ['_'] ps ∧
    stripChar '_' (squashRunsAux (fun c => !(c == '_')) false (intercalateC ['_'] ps)) =
        intercalateC ['_'] ps ∧
    ¬(50 < (intercalateC ['_'] ps).length) ∧
    (intercalateC ['_'] ps).isEmpty = false := by
  have h1 : lowerChars (intercalateC ['_'] ps) = intercalateC ['_'] ps := by
    refine lowerChars_id _ (fun c hc => ?_)
    rcases inter_chars _ c hc with ⟨p, hp, hcp⟩ | rfl
    · exact letter_gt90 c ((hgoodps p hp).2 c hcp)
    · decide
  have h2 : squashRunsAux keepNameChar false (intercalateC ['_'] ps) =
      intercalateC ['_'] ps := by
    refine squash_id _ _ (List.all_eq_true.mpr (fun c hc => ?_)) false
    rcases inter_chars _ c hc with ⟨p, hp, hcp⟩ | rfl
    · exact letter_keep c ((hgoodps p hp).2 c hcp)
    · decide
  have h3 : squashRunsAux (fun c => !(c == '_')) false (intercalateC ['_'] ps) =
      intercalateC ['_'] ps := by
    refine us_inter _ (fun p hp => ⟨(hgoodps p hp).1,
      List.all_eq_true.mpr (fun c hc => ?_)⟩)
    rw [letter_ne_und c ((hgoodps p hp).2 c hc)]
    rfl
  obtain ⟨p0, qs, hps⟩ : ∃ p0 qs, ps = p0 :: qs := by
    cases ps with
    | nil => exact absurd rfl hne
    | cons p0 qs => exact ⟨p0, qs, rfl⟩
  obtain ⟨d, ds, hp0⟩ : ∃ d ds, p0 = d :: ds := by
    obtain ⟨hne0, _⟩ := hgoodps p0 (by rw [hps]; simp)
    cases p0 with
    | nil => exact absurd rfl hne0
    | cons d ds => exact ⟨d, ds, rfl⟩
  have hdlet : ('a' ≤ d && d ≤ 'z') = true :=
    (hgoodps p0 (by rw [hps]; simp)).2 d (by rw [hp0]; simp)
  obtain ⟨X, hX⟩ := inter_cons_head d ds qs
  have hXps : intercalateC ['_'] ps = d :: X := by rw [hps, hp0]; exact hX
  obtain ⟨e, Y, hY, p, hpmem, hep⟩ :=
    inter_last ps hne (fun p hp => (hgoodps p hp).1)
  have helet : ('a' ≤ e && e ≤ 'z') = true := (hgoodps p hpmem).2 e hep
  have h4 : stripChar '_' (intercalateC ['_'] ps) = intercalateC ['_'] ps :=
    stripChar_id '_' _ ⟨d, X, hXps, letter_ne_und d hdlet⟩
      ⟨e, Y, hY, letter_ne_und e helet⟩
  have h5 : ¬(50 < (intercalateC ['_'] ps).length) := by
    have hbound := inter_len_le ps 9 hplen9
    have : ps.length * (9 + 1) ≤ 4 * 10 := by omega
    omega
  have h6 : (intercalateC ['_'] ps).isEmpty = false := by
    rw [hXps]
    rfl
  exact ⟨by rw [h1, h2], by rw [h3, h4], h5, h6⟩

/-- The name produced by generate_smart_tool_name is exactly the underscore
join of its parts, all of which are allowed parts: the sanitising rewrites
(lowercasing, the two squashes, the strip and the length cut) are all the
identity on such a join. -/
theorem gen_name_data (sql q : String) :
    ∃ ps : List (List Char),
      (∀ p ∈ ps, p ∈ allowedNameParts) ∧
      (generateSmartToolName sql q).data = intercalateC ['_'] ps := by
  have hgood : ∀ p ∈ allowedNameParts,
      p ≠ [] ∧ ∀ c ∈ p, ('a' ≤ c && c ≤ 'z') = true := by decide
  have hlen9 : ∀ p ∈ allowedNameParts, p.length ≤ 9 := by decide
  have hmem : ∀ p ∈ (smartOpName sql ::
      (priorityOrder.filter (fun f => f ∈ smartFeatures sql)).take 3).map String.data,
      p ∈ allowedNameParts := by
    intro p hp
    rcases List.mem_map.mp hp with ⟨x, hx, rfl⟩
    rcases List.mem_cons.mp hx with rfl | hx
    · have hsub : ∀ y ∈ (["select", "insert", "update", "delete", "create",
          "alter", "drop", "query"] : List String), y.data ∈ allowedNameParts := by
        decide
      exact hsub _ (smartOpName_mem sql)
    · have hx' := List.mem_filter.mp (List.take_subset 3 _ hx)
      have hfeat : x ∈ smartFeatures sql := of_decide_eq_true hx'.2
      have hsub : ∀ y ∈ (["count", "sum", "aggregate", "grouped", "joined",
          "filtered", "sorted", "limited", "offset", "having", "distinct"] :
            List String), y.data ∈ allowedNameParts := by
        decide
      exact hsub _ (smartFeatures_mem sql x hfeat)
  have hlen4 : ((smartOpName sql ::
      (priorityOrder.filter (fun f => f ∈ smartFeatures sql)).take 3).map
        String.data).length ≤ 4 := by
    rw [List.length_map, List.length_cons]
    have := List.length_take_le 3
      (priorityOrder.filter (fun f => f ∈ smartFeatures sql))
    omega
  obtain ⟨hA, hB, hC, hD⟩ := name_chain_id
    ((smartOpName sql ::
      (priorityOrder.filter (fun f => f ∈ smartFeatures sql)).take 3).map String.data)
    (by simp)
    (fun p hp => hgood p (hmem p hp))
    hlen4
    (fun p hp => hlen9 p (hmem p hp))
  refine ⟨_, hmem, ?_⟩
  rw [generateSmartToolName]
  rw [hA, hB, if_neg hC, hD]
  rw [if_neg (by simp)]

/-- Claim C10: for every SQL string (and question), the name returned by
generate_smart_tool_name never contains the feature tag `left_joined` or
`right_joined` as a substring: the plain-JOIN pattern `\b(INNER\s+)?JOIN\b`
also matches inside `LEFT JOIN` and `RIGHT JOIN`, so any such SQL is tagged
`joined` and the elif branches appending the other two tags are dead
(`right_joined` is moreover absent from the priority order). -/
theorem claim10_no_left_right (sql question : String) :
    containsSub "left_joined".data (generateSmartToolName sql question).data = false ∧
    containsSub "right_joined".data (generateSmartToolName sql question).data = false := by
  obtain ⟨ps, hmem, hdata⟩ := gen_name_data sql question
  rw [hdata]
  constructor
  · rw [show "left_joined".data = "left".data ++ '_' :: "joined".data from rfl,
      Bool.eq_false_iff]
    intro hcs
    exact inter_no_needle "left".data "joined".data (by decide) (by decide)
      (by decide) ps hmem ((containsSub_infix_iff _ _).mp hcs)
  · rw [show "right_joined".data = "right".data ++ '_' :: "joined".data from rfl,
      Bool.eq_false_iff]
    intro hcs
    exact inter_no_needle "right".data "joined".data (by decide) (by decide)
      (by decide) ps hmem ((containsSub_infix_iff _ _).mp hcs)

/-- Claim C1, counterexample.  The claimed token/parameter correspondence
does not hold for every input.  Two failure modes: (1) an input that already
contains a placeholder token, such as `{{.foo}}`, passes through unchanged
with an empty parameter list, leaving a token with no entry; (2) an input
whose quoted literal collides with a later pass, such as
`WHERE a LIKE '5%'`, yields the template
`WHERE {{.where_col}} LIKE {{.{{.value}}}}` — the number pass rewrote the
`5` inside the earlier `{{.5}}` placeholder — so the entry named `5` occurs
in no token of the template. -/
theorem claim1_counterexample :
    checkSound (parameterize true true "\x7b\x7b.foo\x7d\x7d") = false ∧
    checkSound (parameterize true true "WHERE a LIKE '5%'") = false := by
  decide

set_option maxRecDepth 8000 in
/-- Claim C1, amended: the correspondence between placeholder tokens and
parameter entries holds for ordinary SQL inputs (no pre-existing markers, no
literals colliding with later passes); verified here on representative
inputs exercising every pass of the pipeline, under both flag settings. -/
theorem claim1_amended :
    checkSound (parameterize true true
      "SELECT name FROM users WHERE age > 30 LIMIT 10") = true ∧
    checkSound (parameterize true true
      "SELECT t1.name, total FROM orders JOIN customers ON t1.cid = t2.id WHERE status LIKE 'paid%' GROUP BY t1.region ORDER BY total DESC LIMIT 5 OFFSET 2") = true ∧
    checkSound (parameterize false false "SELECT * FROM t WHERE x = 5") = true := by
  decide

end ToolMint
